import Mathlib

/-!
Verification development for the Foodiee recipe-recommendation backend.

The definitions below are a shallow embedding, into Lean, of the Python code
under `backend_recipe/`.  Python strings are modelled as `List Char`, Python
lists as Lean lists, dictionaries with statically known distinct keys as
structures or association lists, SQL float arithmetic as exact rationals,
and fallible operations as `Option`/`Except`.  External services (the LLM,
the embedding model, the image backends, the SQL engine's row store) are
passed in as explicit parameters so that every function is pure and
executable.
-/

namespace Foodiee

/-! ### Python string primitives

`isPySpace` models the ASCII part of Python's `str.strip` whitespace class
and of the regex class `\s` (the inputs handled by this backend are ASCII;
exotic unicode whitespace is not modelled).  `pyStrip` models `str.strip()`,
`splitNl` models `str.split('\n')`. -/

def isPySpace (c : Char) : Bool :=
  c = ' ' || c = '\t' || c = '\n' || c = '\r' || c = Char.ofNat 11 || c = Char.ofNat 12

def pyStrip (s : List Char) : List Char :=
  ((s.dropWhile isPySpace).reverse.dropWhile isPySpace).reverse

/-- `str.split('\n')`: always returns at least one (possibly empty) chunk. -/
def splitNl : List Char → List (List Char)
  | [] => [[]]
  | c :: t =>
    if c = '\n' then [] :: splitNl t
    else List.modifyHead (fun l => c :: l) (splitNl t)

/-- Number of lines of a Python string, i.e. `len(s.split('\n'))`. -/
def lineCount (s : List Char) : Nat := (splitNl s).length

theorem splitNl_ne_nil (s : List Char) : splitNl s ≠ [] := by
  induction s with
  | nil => simp [splitNl]
  | cons c t ih =>
    simp only [splitNl]
    split
    · simp
    · cases h : splitNl t with
      | nil => exact absurd h ih
      | cons a l => simp [List.modifyHead]

theorem length_modifyHead (f : α → α) (L : List α) :
    (List.modifyHead f L).length = L.length := by
  cases L <;> simp [List.modifyHead]

theorem lineCount_eq_count_nl (s : List Char) :
    lineCount s = s.count '\n' + 1 := by
  induction s with
  | nil => rfl
  | cons c t ih =>
    unfold lineCount splitNl
    by_cases h : c = '\n'
    · rw [if_pos h]
      simp only [List.length_cons]
      rw [show (splitNl t).length = lineCount t from rfl, ih]
      subst h
      simp [List.count_cons]
    · rw [if_neg h, length_modifyHead]
      rw [show (splitNl t).length = lineCount t from rfl, ih]
      simp [List.count_cons, h]

/-! ### Step walker sessions (`api/recipes.py`, `api/preferences.py`)

A session is the mutable dictionary stored in the process-wide
`user_sessions` table.  Only the fields touched by the step-walker
endpoints are modelled; the history-entry timestamp (real wall-clock time)
is omitted. -/

structure HistoryEntry where
  step_number : Nat
  step_text : List Char
  image_generated : Bool
  deriving Repr, DecidableEq

structure Session where
  preferences : List Char
  current_recipe : Option (List Char)
  current_step_index : Nat
  recipe_steps : List (List Char)
  recipe_history : List HistoryEntry
  tips : List Char
  deriving Repr, DecidableEq

/-- The session dictionary created by `submit_preferences` (api/preferences.py):
fresh cursor, no recipe, empty step list and history. -/
def initSession (preferences_str : List Char) : Session :=
  { preferences := preferences_str
    current_recipe := none
    current_step_index := 0
    recipe_steps := []
    recipe_history := []
    tips := [] }

/-- Response body of `POST /api/step/next`. -/
structure StepResponse where
  step : Option (List Char)
  step_number : Nat
  total_steps : Nat
  completed : Bool
  deriving Repr, DecidableEq

/-- `next_step` (api/recipes.py, lines 66-112) for an existing session.
`none` models the HTTP 400 "No recipe loaded" branch; otherwise the response
body and the updated session are returned. -/
def next_step (s : Session) : Option (StepResponse × Session) :=
  if s.recipe_steps = [] then
    none
  else
    let current_index := s.current_step_index
    let steps := s.recipe_steps
    if h : current_index ≥ steps.length then
      some ({ step := none
              step_number := current_index
              total_steps := steps.length
              completed := true }, s)
    else
      let current_step := steps.get ⟨current_index, by omega⟩
      let s' := { s with
        current_step_index := current_index + 1
        recipe_history := s.recipe_history ++
          [{ step_number := current_index + 1
             step_text := current_step
             image_generated := false }] }
      some ({ step := some current_step
              step_number := current_index + 1
              total_steps := steps.length
              completed := false }, s')

/-- Response body of `POST /api/step/skip`. -/
structure SkipResponse where
  success : Bool
  tips : List Char
  deriving Repr, DecidableEq

/-- `skip_to_alternatives` (api/recipes.py, lines 119-143) for an existing
session: unconditionally forces the cursor past the end.  Unlike
`next_step` there is no empty-steps guard, so it never returns the 400
error. -/
def skip_to_alternatives (s : Session) : SkipResponse × Session :=
  ({ success := true, tips := s.tips },
   { s with current_step_index := s.recipe_steps.length + 1 })

/-- Iterate `next_step` `n` times, collecting the list of responses (stops
collecting if the 400 branch is ever hit). -/
def advanceN : Nat → Session → List StepResponse × Session
  | 0, s => ([], s)
  | n + 1, s =>
    match next_step s with
    | none => ([], s)
    | some (r, s') =>
      let (rs, s'') := advanceN n s'
      (r :: rs, s'')

theorem advanceN_in_progress (s : Session) (n : Nat)
    (hne : s.recipe_steps ≠ [])
    (hn : s.current_step_index + n ≤ s.recipe_steps.length) :
    (advanceN n s).2.recipe_steps = s.recipe_steps ∧
    (advanceN n s).2.current_step_index = s.current_step_index + n ∧
    (advanceN n s).2.recipe_history.length = s.recipe_history.length + n ∧
    (advanceN n s).2.preferences = s.preferences ∧
    (advanceN n s).2.tips = s.tips ∧
    (advanceN n s).1.length = n ∧
    ∀ r ∈ (advanceN n s).1, r.completed = false := by
  induction n generalizing s with
  | zero => simp [advanceN]
  | succ n ih =>
    have hlt : s.current_step_index < s.recipe_steps.length := by omega
    simp only [advanceN, next_step, if_neg hne, dif_neg (by omega : ¬ s.current_step_index ≥ s.recipe_steps.length)]
    have ih' := ih { s with
        current_step_index := s.current_step_index + 1
        recipe_history := s.recipe_history ++
          [{ step_number := s.current_step_index + 1
             step_text := s.recipe_steps.get ⟨s.current_step_index, hlt⟩
             image_generated := false }] } (by simpa using hne) (by simp; omega)
    simp only at ih'
    refine ⟨?_, ?_, ?_, ?_, ?_, ?_, ?_⟩
    · exact ih'.1
    · rw [ih'.2.1]; omega
    · rw [ih'.2.2.1]; simp; omega
    · exact ih'.2.2.2.1
    · exact ih'.2.2.2.2.1
    · exact congrArg Nat.succ ih'.2.2.2.2.2.1
    · intro r hr
      simp only [List.mem_cons] at hr
      rcases hr with h | h
      · subst h; rfl
      · exact ih'.2.2.2.2.2.2 r h

theorem advanceN_none (n : Nat) (s : Session) (h : next_step s = none) :
    advanceN n s = ([], s) := by
  cases n <;> simp [advanceN, h]

theorem advanceN_add (m n : Nat) (s : Session) :
    advanceN (m + n) s =
      ((advanceN m s).1 ++ (advanceN n (advanceN m s).2).1,
       (advanceN n (advanceN m s).2).2) := by
  induction m generalizing s with
  | zero => simp [advanceN]
  | succ m ih =>
    have hmn : m + 1 + n = (m + n) + 1 := by omega
    rw [hmn]
    simp only [advanceN]
    cases h : next_step s with
    | none =>
      simp [advanceN_none n s h]
    | some p =>
      simp [ih p.2]

/-- Claim C9: once the cursor is at or past the end of a non-empty step list,
`next_step` returns the completion signal and leaves the session (cursor,
steps, history) entirely unchanged. -/
theorem next_step_idempotent_once_completed (s : Session)
    (hne : s.recipe_steps ≠ [])
    (hc : s.current_step_index ≥ s.recipe_steps.length) :
    next_step s = some ({ step := none
                          step_number := s.current_step_index
                          total_steps := s.recipe_steps.length
                          completed := true }, s) := by
  simp [next_step, hne, hc]

/-- Witness for C9 at a concrete completed session. -/
theorem next_step_idempotent_once_completed_witness :
    next_step { preferences := [], current_recipe := none, current_step_index := 3
                recipe_steps := [['a'], ['b']], recipe_history := [], tips := [] } =
      some ({ step := none, step_number := 3, total_steps := 2, completed := true },
            { preferences := [], current_recipe := none, current_step_index := 3
              recipe_steps := [['a'], ['b']], recipe_history := [], tips := [] }) :=
  next_step_idempotent_once_completed _ (by decide) (by decide)

/-- Claim C3 as stated is false: from `not_started` over `L ≥ 1` steps,
`L` advance calls return `completed = false` every time; the completion
signal only arrives on call `L + 1`.  Concretely, with one step and cursor
0, one advance call yields zero `completed = true` responses, not one. -/
theorem next_step_L_calls_no_completion :
    ((advanceN 1 { preferences := [], current_recipe := none, current_step_index := 0
                   recipe_steps := [['a']], recipe_history := [], tips := [] }).1.countP
        (fun r => r.completed)) ≠ 1 := by
  decide

/-- Claim C3 (amended): from `not_started` over `L ≥ 1` steps, calling
advance exactly `L + 1` times yields exactly one `completed = true`
response (the final call), and that completing call appends no history
entry: exactly `L` history entries are produced in total. -/
theorem next_step_L_succ_calls_one_completion (s : Session)
    (hL : 1 ≤ s.recipe_steps.length) (h0 : s.current_step_index = 0) :
    ((advanceN (s.recipe_steps.length + 1) s).1.countP (fun r => r.completed)) = 1 ∧
    (advanceN (s.recipe_steps.length + 1) s).1.length = s.recipe_steps.length + 1 ∧
    (advanceN (s.recipe_steps.length + 1) s).2.recipe_history.length =
      s.recipe_history.length + s.recipe_steps.length ∧
    (advanceN (s.recipe_steps.length + 1) s).2.current_step_index = s.recipe_steps.length := by
  have hne : s.recipe_steps ≠ [] := by
    intro h; rw [h] at hL; simp at hL
  have hmain := advanceN_in_progress s s.recipe_steps.length hne (by omega)
  have hsplit := advanceN_add s.recipe_steps.length 1 s
  set s₁ := (advanceN s.recipe_steps.length s).2 with hs₁
  have hs₁ne : s₁.recipe_steps ≠ [] := by rw [hmain.1]; exact hne
  have hs₁c : s₁.current_step_index ≥ s₁.recipe_steps.length := by
    rw [hmain.1, hmain.2.1, h0]; omega
  have hlast := next_step_idempotent_once_completed s₁ hs₁ne hs₁c
  have hone : advanceN 1 s₁ =
      ([{ step := none, step_number := s₁.current_step_index
          total_steps := s₁.recipe_steps.length, completed := true }], s₁) := by
    simp [advanceN, hlast]
  rw [hsplit, hone]
  refine ⟨?_, ?_, ?_, ?_⟩
  · rw [List.countP_append]
    have hz : (advanceN s.recipe_steps.length s).1.countP (fun r => r.completed) = 0 := by
      rw [List.countP_eq_zero]
      intro r hr
      simp [hmain.2.2.2.2.2.2 r hr]
    rw [hz]
    simp
  · simp [hmain.2.2.2.2.2.1]
  · rw [← hs₁, hmain.2.2.1]
  · rw [← hs₁, hmain.2.1]; omega

/-- Witness for the amended C3 at a concrete two-step session. -/
theorem next_step_L_succ_calls_one_completion_witness :
    ((advanceN 3 { preferences := [], current_recipe := none, current_step_index := 0
                   recipe_steps := [['a'], ['b']], recipe_history := [], tips := [] }).1.countP
        (fun r => r.completed)) = 1 :=
  (next_step_L_succ_calls_one_completion
    { preferences := [], current_recipe := none, current_step_index := 0
      recipe_steps := [['a'], ['b']], recipe_history := [], tips := [] }
    (by decide) (by decide)).1

/-- Claim C10: `skip_to_alternatives` has no empty-steps guard, so on every
existing session it succeeds (never the 400 branch that `next_step` has)
and forces the cursor to `len(recipe_steps) + 1`; in particular on a fresh
session (no recipe loaded, where `next_step` would return the 400 error)
it sets the cursor to 1 and reports success. -/
theorem skip_works_without_recipe (s : Session) (p : List Char) :
    (skip_to_alternatives s).1.success = true ∧
    (skip_to_alternatives s).2.current_step_index = s.recipe_steps.length + 1 ∧
    (skip_to_alternatives (initSession p)).2.current_step_index = 1 ∧
    (skip_to_alternatives (initSession p)).1.success = true ∧
    next_step (initSession p) = none := by
  refine ⟨rfl, rfl, rfl, rfl, ?_⟩
  simp [next_step, initSession]

/-! ### Image generation (`core/optimized_recommender.py` 398-497,
`core/recommender.py` 157-195)

External effects are passed in explicitly: `apiKey` is
`os.environ.get("GOOGLE_API_KEY")`; a backend call's outcome is an
`Except` value whose `.error` constructor models the Python call raising.
A Lean result of type `Except _ _` models a Python function that can
raise; a plain pair models a function that always returns. -/

/-- `OptimizedRecipeRecommender.gemini_image_generator` (lines 398-429).
`genResult` is the outcome of `client.models.generate_images`; on success it
carries the base64 payload of the first generated image, if any.  The
source wraps a raising backend call in `raise ValueError(...) from exc`,
so the whole function is fallible (`Except`). -/
def gemini_image_generator (image_prompt : List Char)
    (apiKey : Option (List Char))
    (genResult : Except (List Char) (Option (List Char))) :
    Except (List Char) (Option (List Char) × List Char) :=
  match apiKey with
  | none => .error "GOOGLE_API_KEY not configured".data
  | some _ =>
    match genResult with
    | .error exc => .error ("Gemini image generation failed: ".data ++ exc)
    | .ok image_base64 => .ok (image_base64, image_prompt)

/-- `OptimizedRecipeRecommender.generate_image` (lines 432-497).
`cachedUrl` is `db.get_recipe_image(...)`; `stable_diffusion_pipe = none`
models a missing local pipeline, otherwise it holds the outcome of the
in-process inference call.  The function itself never raises: its return
type is a plain pair. -/
def generate_image {Img : Type} (cachedUrl : Option (List Char))
    (image_prompt : List Char) (image_generation_enabled : Bool)
    (stable_diffusion_pipe : Option (Except (List Char) Img)) :
    Option Img × List Char :=
  match cachedUrl with
  | some url => (none, "[Cached image available at: ".data ++ url ++ "]".data)
  | none =>
    match stable_diffusion_pipe with
    | none => (none, image_prompt)
    | some pipeResult =>
      if ¬ image_generation_enabled then (none, image_prompt)
      else
        match pipeResult with
        | .ok image => (some image, image_prompt)
        | .error _ => (none, image_prompt)

/-- `RecipeRecommender.generate_image` (core/recommender.py, lines 157-195):
same as the optimized variant but with no cache lookup. -/
def generate_image_traditional {Img : Type} (image_prompt : List Char)
    (image_generation_enabled : Bool)
    (stable_diffusion_pipe : Option (Except (List Char) Img)) :
    Option Img × List Char :=
  match stable_diffusion_pipe with
  | none => (none, image_prompt)
  | some pipeResult =>
    if ¬ image_generation_enabled then (none, image_prompt)
    else
      match pipeResult with
      | .ok image => (some image, image_prompt)
      | .error _ => (none, image_prompt)

/-- Claim C8 as stated is false: `gemini_image_generator` does *not* convert
a backend exception into a null-image result — it re-raises it as a
`ValueError`, even when the API credentials are present.  Concretely, with
a configured key and a failing backend the call propagates an error
instead of returning a null-image success. -/
theorem gemini_propagates_backend_error :
    gemini_image_generator "p".data (some "key".data) (.error "boom".data) =
      .error "Gemini image generation failed: boom".data := by
  rfl

/-- Claim C8 (amended): the two Stable-Diffusion `generate_image` methods
catch any backend exception and return a null image together with the
generated prompt text, and never raise; `gemini_image_generator`, however,
raises both on missing API credentials and on any backend exception (which
it wraps in a `ValueError`), returning the prompt only on success. -/
theorem image_backend_failure_handling {Img : Type}
    (image_prompt e key : List Char) (enabled : Bool)
    (img : Option (List Char)) :
    @generate_image Img none image_prompt enabled (some (.error e)) =
      (none, image_prompt) ∧
    @generate_image_traditional Img image_prompt enabled (some (.error e)) =
      (none, image_prompt) ∧
    gemini_image_generator image_prompt none (.ok img) =
      .error "GOOGLE_API_KEY not configured".data ∧
    gemini_image_generator image_prompt (some key) (.error e) =
      .error ("Gemini image generation failed: ".data ++ e) ∧
    gemini_image_generator image_prompt (some key) (.ok img) =
      .ok (img, image_prompt) := by
  refine ⟨?_, ?_, rfl, rfl, rfl⟩ <;> cases enabled <;> rfl

/-! ### Semantic refinement and merge
(`optimized_recommender.recommend_recipes`, lines 140-151) -/

/-- Line 148: `semantic_results[:10] + [c for c in candidates if c not in
semantic_results][:10]`.  Python's `in` over row dictionaries compares by
value (`==`), which `∈` over a type with decidable equality models
exactly. -/
def mergeCandidates {α : Type} [DecidableEq α]
    (semantic_results candidates : List α) : List α :=
  semantic_results.take 10 ++
    (candidates.filter (fun c => c ∉ semantic_results)).take 10

/-- Lines 140-151: the semantic refinement step of `recommend_recipes`.
`semantic_results` is the oracle outcome of `db.semantic_search`;
`embeddings_available` is `self.embeddings_model` being non-None. -/
def refineCandidates {α : Type} [DecidableEq α] (embeddings_available : Bool)
    (semantic_results candidates : List α) : List α :=
  if embeddings_available ∧ candidates.length > 10 then
    mergeCandidates semantic_results candidates
  else candidates

/-- Modelled from the claim's words (C7, refinement target): a merge that
deduplicates *by object identity only*.  Rows delivered by the two separate
database fetches are never literally the same object, so under the claim's
reading nothing is ever removed from the fallback tail. -/
def mergeCandidatesClaim {α : Type} (semantic_results candidates : List α) :
    List α :=
  semantic_results.take 10 ++ candidates.take 10

/-- Claim C7 as stated is false: two structurally-equal rows from the two
sources ARE treated as duplicates — the comprehension filters with Python
`==` (value equality), not object identity.  With a row of value 1 present
in both sources, the code's merged list differs from the identity-dedup
shape the claim describes. -/
theorem merge_dedups_by_value :
    refineCandidates true [1] [1, 2, 3, 4, 5, 6, 7, 8, 9, 10, 11] ≠
      mergeCandidatesClaim [1] ([1, 2, 3, 4, 5, 6, 7, 8, 9, 10, 11] : List Nat) := by
  decide

/-- Claim C7 (amended): whenever the hard-filtered candidate list exceeds 10
elements and an embedding backend is available, the merged list is the first
10 semantic results followed by up to 10 hard-filtered candidates whose
*values* do not already occur among the semantic results (deduplication is
by Python value equality, so structurally-equal rows are duplicates). -/
theorem merge_rule_value_dedup {α : Type} [DecidableEq α]
    (sem cands : List α) (hlen : cands.length > 10) :
    refineCandidates true sem cands =
      sem.take 10 ++ (cands.filter (fun c => c ∉ sem)).take 10 ∧
    (refineCandidates true sem cands).length ≤ 20 ∧
    ∀ c ∈ (refineCandidates true sem cands).drop (sem.take 10).length,
      c ∉ sem := by
  have hre : refineCandidates true sem cands =
      sem.take 10 ++ (cands.filter (fun c => c ∉ sem)).take 10 := by
    simp [refineCandidates, mergeCandidates, hlen]
  refine ⟨hre, ?_, ?_⟩
  · rw [hre]
    have h1 : (sem.take 10).length ≤ 10 := by
      simp [List.length_take]
    have h2 : ((cands.filter (fun c => c ∉ sem)).take 10).length ≤ 10 := by
      simp [List.length_take]
    simp only [List.length_append]
    omega
  · rw [hre, List.drop_left]
    intro c hc
    have := List.mem_of_mem_take hc
    have := List.of_mem_filter this
    simpa using this

/-- Witness for the amended C7 at a concrete candidate list of length 11. -/
theorem merge_rule_value_dedup_witness :
    ([1, 2, 3, 4, 5, 6, 7, 8, 9, 10, 11] : List Nat).length > 10 ∧
    (refineCandidates true [1] [1, 2, 3, 4, 5, 6, 7, 8, 9, 10, 11]).length ≤ 20 :=
  ⟨by decide, (merge_rule_value_dedup [1] [1, 2, 3, 4, 5, 6, 7, 8, 9, 10, 11]
      (by decide)).2.1⟩

/-! ### Detail-fetch routing
(`optimized_recommender.get_detailed_recipe`, lines 235-319)

The recipe names this endpoint receives are single-line strings; the
regex models below are faithful on newline-free input (`$` and `.` in the
source patterns behave differently around embedded newlines). -/

/-- `re.sub(r'^\d+\.\s*', '', recipe_name)`: strip one leading `N.`
numbering prefix together with the whitespace that follows it. -/
def stripNumbering (s : List Char) : List Char :=
  let ds := s.takeWhile Char.isDigit
  if ds = [] then s
  else
    match s.drop ds.length with
    | '.' :: rest => rest.dropWhile isPySpace
    | _ => s

/-- `re.sub(r'\s*-\s*.*$', '', s)`: drop everything from the first `-` on,
including the whitespace immediately before it. -/
def stripDashComment (s : List Char) : List Char :=
  match s.findIdx? (fun c => c = '-') with
  | none => s
  | some d => ((s.take d).reverse.dropWhile isPySpace).reverse

/-- Lines 244-245: numbering strip + strip, then dash-comment strip + strip. -/
def cleanRecipeName (recipe_name : List Char) : List Char :=
  pyStrip (stripDashComment (pyStrip (stripNumbering recipe_name)))

/-- Line 250: `re.match(r'^Recipe\s+\d+$', clean_name, re.IGNORECASE)`. -/
def isPlaceholderName (s : List Char) : Bool :=
  let lower := s.map Char.toLower
  "recipe".data.isPrefixOf lower &&
    (let rest := lower.drop 6
     let ws := rest.takeWhile isPySpace
     decide (ws ≠ []) &&
       (let ds := rest.drop ws.length
        decide (ds ≠ []) && ds.all Char.isDigit))

inductive DetailSource
  | freeformLLM
  | database
  deriving Repr, DecidableEq

structure DetailOutcome where
  source : DetailSource
  db_queries : List (List Char)
  deriving Repr, DecidableEq

/-- Routing skeleton of `get_detailed_recipe`: `db` is the structured
recipe store, mapping a query pattern (`name`, `name%`, `%name%`) to
whether a row matches.  The outcome records where the recipe text is
produced and the exact sequence of queries issued against the structured
store (the placeholder branch and the final miss both fall back to
freeform LLM generation via `RecipeRecommender`). -/
def get_detailed_recipe (recipe_name : List Char) (db : List Char → Bool) :
    DetailOutcome :=
  let clean_name := cleanRecipeName recipe_name
  if isPlaceholderName clean_name then
    { source := .freeformLLM, db_queries := [] }
  else if db clean_name then
    { source := .database, db_queries := [clean_name] }
  else if clean_name.length > 3 then
    let p1 := clean_name
    let p2 := clean_name ++ ['%']
    let p3 := '%' :: (clean_name ++ ['%'])
    if db p1 then { source := .database, db_queries := [clean_name, p1] }
    else if db p2 then { source := .database, db_queries := [clean_name, p1, p2] }
    else if db p3 then { source := .database, db_queries := [clean_name, p1, p2, p3] }
    else { source := .freeformLLM, db_queries := [clean_name, p1, p2, p3] }
  else
    { source := .freeformLLM, db_queries := [clean_name] }

/-- Claim C6: whenever the cleaned recipe name matches the case-insensitive
placeholder pattern `Recipe \d+`, `get_detailed_recipe` issues no query at
all against the structured recipe store and routes to freeform LLM
generation, whatever the store contains. -/
theorem placeholder_bypasses_database (recipe_name : List Char)
    (db : List Char → Bool)
    (h : isPlaceholderName (cleanRecipeName recipe_name) = true) :
    get_detailed_recipe recipe_name db =
      { source := .freeformLLM, db_queries := [] } := by
  simp [get_detailed_recipe, h]

/-- Witness for C6 at the spec's own scenario, the unresolved placeholder
name "Recipe 2", against a store that would match any pattern. -/
theorem placeholder_bypasses_database_witness :
    isPlaceholderName (cleanRecipeName "Recipe 2".data) = true ∧
    get_detailed_recipe "Recipe 2".data (fun _ => true) =
      { source := .freeformLLM, db_queries := [] } :=
  ⟨by decide, placeholder_bypasses_database "Recipe 2".data _ (by decide)⟩

/-! ### Candidate retriever (`database/db_helpers.py`,
`RecipeDatabase.find_recipes`, lines 22-85)

The SQL query is modelled as a pure function over the list of rows of the
`recipes` table.  SQL float arithmetic is modelled as exact rationals.
Postgres's `GREATEST(array_length(arr, 1), 1)` equals `max(len(arr), 1)`
because `array_length` of an empty array is NULL and `GREATEST` ignores
NULL arguments.  `ORDER BY` determines the output only up to ties; the
model fixes one compliant order with a merge sort. -/

structure RecipeRow where
  name : List Char
  cuisine_type : List Char
  meal_type : List (List Char)
  total_time_minutes : Int
  taste_profile : List (List Char)
  allergens : List (List Char)
  popularity_score : ℚ
  deriving Repr, DecidableEq

/-- The `match_score` expression of the SQL query: the taste term counts the
*recipe's* taste-profile entries that occur in the requested list
(`COUNT(*) FROM unnest(taste_profile) t WHERE t = ANY(requested)`). -/
def match_score (cuisine mt : List Char) (max_time : Int)
    (taste_preferences : List (List Char)) (r : RecipeRow) : ℚ :=
  (if r.cuisine_type = cuisine then 2 else 0) +
  (if mt ∈ r.meal_type then 2 else 0) +
  (if r.total_time_minutes ≤ max_time then 1 else 0) +
  ((r.taste_profile.countP (fun t => decide (t ∈ taste_preferences)) : ℚ) /
    (max taste_preferences.length 1 : ℕ)) +
  r.popularity_score / 100

/-- The `WHERE` clause of the query (`&&` is Postgres array overlap). -/
def passes_filters (cuisine mt : List Char) (max_time : Int)
    (exclude_allergens : List (List Char)) (r : RecipeRow) : Bool :=
  decide (r.cuisine_type = cuisine) &&
  decide (mt ∈ r.meal_type) &&
  decide (r.total_time_minutes ≤ max_time) &&
  !(r.allergens.any (fun a => decide (a ∈ exclude_allergens)))

/-- The `ORDER BY match_score DESC, popularity_score DESC` comparison. -/
def row_le (cuisine mt : List Char) (max_time : Int)
    (taste_preferences : List (List Char)) (a b : RecipeRow) : Bool :=
  let sa := match_score cuisine mt max_time taste_preferences a
  let sb := match_score cuisine mt max_time taste_preferences b
  decide (sb < sa ∨ (sa = sb ∧ b.popularity_score ≤ a.popularity_score))

/-- Insertion into a list sorted by a boolean comparison (used to model the
SQL `ORDER BY`, whose output is determined only up to ties). -/
def insertRow {α : Type} (le : α → α → Bool) (x : α) : List α → List α
  | [] => [x]
  | y :: ys => if le x y then x :: y :: ys else y :: insertRow le x ys

/-- Insertion sort by a boolean comparison. -/
def sortRows {α : Type} (le : α → α → Bool) : List α → List α
  | [] => []
  | x :: xs => insertRow le x (sortRows le xs)

theorem insertRow_perm {α : Type} (le : α → α → Bool) (x : α) (l : List α) :
    List.Perm (insertRow le x l) (x :: l) := by
  induction l with
  | nil => simp [insertRow]
  | cons y ys ih =>
    simp only [insertRow]
    split
    · exact List.Perm.refl _
    · exact (List.Perm.cons y ih).trans (List.Perm.swap x y ys)

theorem sortRows_perm {α : Type} (le : α → α → Bool) (l : List α) :
    List.Perm (sortRows le l) l := by
  induction l with
  | nil => simp [sortRows]
  | cons x xs ih =>
    exact (insertRow_perm le x (sortRows le xs)).trans (List.Perm.cons x ih)

theorem pairwise_insertRow {α : Type} (le : α → α → Bool)
    (htot : ∀ a b, (le a b || le b a) = true)
    (htr : ∀ a b c, le a b = true → le b c = true → le a c = true)
    (x : α) (l : List α) (h : List.Pairwise (fun a b => le a b = true) l) :
    List.Pairwise (fun a b => le a b = true) (insertRow le x l) := by
  induction l with
  | nil => simp [insertRow]
  | cons y ys ih =>
    rcases List.pairwise_cons.mp h with ⟨hy, hys⟩
    simp only [insertRow]
    by_cases hxy : le x y = true
    · rw [if_pos hxy]
      refine List.pairwise_cons.mpr ⟨?_, h⟩
      intro z hz
      rcases List.mem_cons.mp hz with rfl | hz
      · exact hxy
      · exact htr x y z hxy (hy z hz)
    · rw [if_neg hxy]
      have hyx : le y x = true := by
        have := htot x y
        rcases Bool.or_eq_true_iff.mp this with h' | h'
        · exact absurd h' hxy
        · exact h'
      refine List.pairwise_cons.mpr ⟨?_, ih hys⟩
      intro z hz
      have hz' : z ∈ x :: ys := (insertRow_perm le x ys).mem_iff.mp hz
      rcases List.mem_cons.mp hz' with rfl | hz'
      · exact hyx
      · exact hy z hz'

theorem pairwise_sortRows {α : Type} (le : α → α → Bool)
    (htot : ∀ a b, (le a b || le b a) = true)
    (htr : ∀ a b c, le a b = true → le b c = true → le a c = true)
    (l : List α) :
    List.Pairwise (fun a b => le a b = true) (sortRows le l) := by
  induction l with
  | nil => simp [sortRows]
  | cons x xs ih => exact pairwise_insertRow le htot htr x (sortRows le xs) ih

/-- `RecipeDatabase.find_recipes`: filter, order, limit. -/
def find_recipes (rows : List RecipeRow) (cuisine mt : List Char)
    (max_time : Int) (exclude_allergens taste_preferences : List (List Char))
    (limit : Nat) : List RecipeRow :=
  (sortRows (row_le cuisine mt max_time taste_preferences)
      (rows.filter (passes_filters cuisine mt max_time exclude_allergens))).take limit

theorem row_le_trans (cuisine mt : List Char) (max_time : Int)
    (tastes : List (List Char)) (a b c : RecipeRow)
    (h1 : row_le cuisine mt max_time tastes a b = true)
    (h2 : row_le cuisine mt max_time tastes b c = true) :
    row_le cuisine mt max_time tastes a c = true := by
  simp only [row_le, decide_eq_true_eq] at *
  rcases h1 with h1 | ⟨h1e, h1p⟩
  · rcases h2 with h2 | ⟨h2e, h2p⟩
    · exact Or.inl (lt_trans h2 h1)
    · exact Or.inl (h2e ▸ h1)
  · rcases h2 with h2 | ⟨h2e, h2p⟩
    · exact Or.inl (h1e ▸ h2)
    · exact Or.inr ⟨h1e.trans h2e, le_trans h2p h1p⟩

theorem row_le_total (cuisine mt : List Char) (max_time : Int)
    (tastes : List (List Char)) (a b : RecipeRow) :
    (row_le cuisine mt max_time tastes a b ||
      row_le cuisine mt max_time tastes b a) = true := by
  simp only [row_le, Bool.or_eq_true, decide_eq_true_eq]
  rcases lt_trichotomy (match_score cuisine mt max_time tastes a)
      (match_score cuisine mt max_time tastes b) with h | h | h
  · exact Or.inr (Or.inl h)
  · rcases le_total b.popularity_score a.popularity_score with hp | hp
    · exact Or.inl (Or.inr ⟨h, hp⟩)
    · exact Or.inr (Or.inr ⟨h.symm, hp⟩)
  · exact Or.inl (Or.inl h)

/-- Modelled from the claim's words (C4, refinement target): the match score
with the taste term counting *requested tastes present in the recipe's
taste list* instead of recipe tastes present in the requested list. -/
def match_score_claim (cuisine mt : List Char) (max_time : Int)
    (taste_preferences : List (List Char)) (r : RecipeRow) : ℚ :=
  (if r.cuisine_type = cuisine then 2 else 0) +
  (if mt ∈ r.meal_type then 2 else 0) +
  (if r.total_time_minutes ≤ max_time then 1 else 0) +
  ((taste_preferences.countP (fun t => decide (t ∈ r.taste_profile)) : ℚ) /
    (max taste_preferences.length 1 : ℕ)) +
  r.popularity_score / 100

def rowA : RecipeRow :=
  { name := "A".data, cuisine_type := "I".data, meal_type := ["l".data]
    total_time_minutes := 25, taste_profile := ["S".data, "S".data]
    allergens := [], popularity_score := 0 }

def rowB : RecipeRow :=
  { name := "B".data, cuisine_type := "I".data, meal_type := ["l".data]
    total_time_minutes := 20, taste_profile := ["S".data]
    allergens := [], popularity_score := 50 }

/-- Claim C4 as stated is false: the SQL taste term counts the recipe's
taste-profile entries occurring in the requested list (with multiplicity
over the profile), not requested tastes found in the profile.  With a
duplicated profile entry the two formulas order rows differently: the code
ranks `rowA` (SQL score 7) above `rowB` (6.5), while the claim's formula
gives `rowA` score 6 < 6.5, so the returned order violates the claimed
"descending match score" ordering. -/
theorem match_score_rowA :
    match_score "I".data "l".data 30 ["S".data] rowA = 7 := by
  simp [match_score, rowA]
  norm_num

theorem match_score_rowB :
    match_score "I".data "l".data 30 ["S".data] rowB = 13 / 2 := by
  simp [match_score, rowB]
  norm_num

theorem find_recipes_not_claim_ordered :
    find_recipes [rowA, rowB] "I".data "l".data 30 [] ["S".data] 20 =
      [rowA, rowB] ∧
    match_score_claim "I".data "l".data 30 ["S".data] rowA <
      match_score_claim "I".data "l".data 30 ["S".data] rowB := by
  constructor
  · have hle : row_le "I".data "l".data 30 ["S".data] rowA rowB = true := by
      simp only [row_le, decide_eq_true_eq]
      left
      rw [match_score_rowA, match_score_rowB]
      norm_num
    have hfilter : List.filter (passes_filters "I".data "l".data 30 []) [rowA, rowB] =
        [rowA, rowB] := by decide
    rw [find_recipes, hfilter]
    simp [sortRows, insertRow, hle]
  · have hA : match_score_claim "I".data "l".data 30 ["S".data] rowA = 6 := by
      simp [match_score_claim, rowA]
      norm_num
    have hB : match_score_claim "I".data "l".data 30 ["S".data] rowB = 13 / 2 := by
      simp [match_score_claim, rowB]
      norm_num
    rw [hA, hB]
    norm_num

/-- Claim C4 (amended): `find_recipes` returns at most `limit` rows, each
drawn from the table and satisfying the hard filters (cuisine equal, meal
type present, total time within bound, no shared allergen), ordered by
descending SQL match score and then descending popularity, where the taste
term of the score is (count of the recipe's taste-profile entries present
in the requested list) / max(1, count of requested tastes); an empty
requested-taste list contributes exactly 0 to the score, and when no row
matches the result is the empty list rather than an error. -/
theorem find_recipes_spec (rows : List RecipeRow) (cuisine mt : List Char)
    (max_time : Int) (excl tastes : List (List Char)) (limit : Nat) :
    (find_recipes rows cuisine mt max_time excl tastes limit).length ≤ limit ∧
    (∀ r ∈ find_recipes rows cuisine mt max_time excl tastes limit,
        passes_filters cuisine mt max_time excl r = true ∧ r ∈ rows) ∧
    List.Pairwise (fun a b =>
        match_score cuisine mt max_time tastes b <
          match_score cuisine mt max_time tastes a ∨
        (match_score cuisine mt max_time tastes a =
          match_score cuisine mt max_time tastes b ∧
         b.popularity_score ≤ a.popularity_score))
      (find_recipes rows cuisine mt max_time excl tastes limit) ∧
    (∀ r : RecipeRow, tastes = [] →
        match_score cuisine mt max_time tastes r =
          (if r.cuisine_type = cuisine then 2 else 0) +
          (if mt ∈ r.meal_type then 2 else 0) +
          (if r.total_time_minutes ≤ max_time then 1 else 0) +
          r.popularity_score / 100) ∧
    ((∀ r ∈ rows, passes_filters cuisine mt max_time excl r = false) →
        find_recipes rows cuisine mt max_time excl tastes limit = []) := by
  refine ⟨?_, ?_, ?_, ?_, ?_⟩
  · rw [find_recipes, List.length_take]
    exact min_le_left _ _
  · intro r hr
    have h1 : r ∈ sortRows (row_le cuisine mt max_time tastes)
        (rows.filter (passes_filters cuisine mt max_time excl)) :=
      List.mem_of_mem_take hr
    have h2 : r ∈ rows.filter (passes_filters cuisine mt max_time excl) :=
      (sortRows_perm _ _).mem_iff.mp h1
    exact ⟨List.of_mem_filter h2, List.mem_of_mem_filter h2⟩
  · have hs := pairwise_sortRows (row_le cuisine mt max_time tastes)
      (row_le_total cuisine mt max_time tastes)
      (row_le_trans cuisine mt max_time tastes)
      (rows.filter (passes_filters cuisine mt max_time excl))
    have hsub := List.take_sublist limit
      (sortRows (row_le cuisine mt max_time tastes)
        (rows.filter (passes_filters cuisine mt max_time excl)))
    have hp := hs.sublist hsub
    refine hp.imp ?_
    intro a b hab
    simpa [row_le, decide_eq_true_eq] using hab
  · intro r htastes
    subst htastes
    simp [match_score]
  · intro hnone
    rw [find_recipes]
    have hf : rows.filter (passes_filters cuisine mt max_time excl) = [] := by
      rw [List.filter_eq_nil_iff]
      intro r hr
      simp [hnone r hr]
    rw [hf]
    simp [sortRows]

/-- Witness for the amended C4: a concrete row failing the cuisine filter
yields the empty list, and the concrete two-row query returns at most the
limit. -/
theorem find_recipes_spec_witness :
    find_recipes [rowA] "F".data "l".data 30 [] [] 20 = [] ∧
    (find_recipes [rowA, rowB] "I".data "l".data 30 [] ["S".data] 20).length ≤ 20 :=
  ⟨(find_recipes_spec [rowA] "F".data "l".data 30 [] [] 20).2.2.2.2
      (by decide),
   (find_recipes_spec [rowA, rowB] "I".data "l".data 30 [] ["S".data] 20).1⟩

/-! ### Denormalized step serialization (`data/final_db_helpers.py`)

`serialize_steps` / `serialize_step_images` are `'<STEP_DELIMITER>'.join`;
the deserializers are `'' → []` and otherwise Python `str.split` on the
delimiter.  `splitFirst` finds the leftmost occurrence of the separator,
exactly as `str.split` does chunk by chunk. -/

def STEP_DELIMITER : List Char := "<STEP_DELIMITER>".data

/-- `serialize_steps` (lines 151-164): `STEP_DELIMITER.join(steps)`. -/
def serialize_steps (steps : List (List Char)) : List Char :=
  List.intercalate STEP_DELIMITER steps

/-- `serialize_step_images` (lines 167-177): same join over the URLs. -/
def serialize_step_images (step_image_urls : List (List Char)) : List Char :=
  List.intercalate STEP_DELIMITER step_image_urls

/-- Leftmost split: `some (pre, post)` iff `s = pre ++ sep ++ post` with the
occurrence of `sep` leftmost. -/
def splitFirst (sep : List Char) : List Char → Option (List Char × List Char)
  | [] => none
  | c :: cs =>
    if sep.isPrefixOf (c :: cs) then some ([], (c :: cs).drop sep.length)
    else
      match splitFirst sep cs with
      | none => none
      | some (pre, post) => some (c :: pre, post)

/-- Python `s.split(sep)` with explicit fuel (one unit per produced chunk;
`s.length` units always suffice for a non-empty separator). -/
def pySplitFuel (sep : List Char) : Nat → List Char → List (List Char)
  | 0, s => [s]
  | fuel + 1, s =>
    match splitFirst sep s with
    | none => [s]
    | some (pre, post) => pre :: pySplitFuel sep fuel post

/-- `steps_str.split(STEP_DELIMITER)` for non-empty `steps_str`. -/
def pySplitSteps (s : List Char) : List (List Char) :=
  pySplitFuel STEP_DELIMITER s.length s

/-- `deserialize_steps` (lines 246-258). -/
def deserialize_steps (steps_str : List Char) : List (List Char) :=
  if steps_str = [] then [] else pySplitSteps steps_str

/-- `deserialize_step_images` (lines 261-273): textually the same algorithm
as `deserialize_steps`. -/
def deserialize_step_images (step_image_urls_str : List Char) : List (List Char) :=
  if step_image_urls_str = [] then [] else pySplitSteps step_image_urls_str

theorem splitFirst_length (sep : List Char) :
    ∀ s pre post, splitFirst sep s = some (pre, post) →
      post.length + sep.length ≤ s.length := by
  intro s
  induction s with
  | nil => intro pre post h; simp [splitFirst] at h
  | cons c cs ih =>
    intro pre post h
    rw [splitFirst] at h
    split at h
    · rename_i hpre
      have hlen : sep.length ≤ (c :: cs).length :=
        (List.isPrefixOf_iff_prefix.mp hpre).length_le
      simp only [Option.some.injEq, Prod.mk.injEq] at h
      rcases h with ⟨-, hpost⟩
      subst hpost
      simp only [List.length_drop]
      omega
    · revert h
      cases hs : splitFirst sep cs with
      | none => intro h; simp at h
      | some p =>
        intro h
        simp only [Option.some.injEq] at h
        have := ih p.1 p.2 (by rw [hs])
        have hp : post = p.2 := by
          cases p
          cases h
          rfl
        subst hp
        simp only [List.length_cons]
        omega

theorem pySplitFuel_fuel_irrel (sep : List Char) (hsep : sep ≠ []) :
    ∀ n s f g, s.length ≤ n → s.length ≤ f → s.length ≤ g →
      pySplitFuel sep f s = pySplitFuel sep g s := by
  intro n
  induction n with
  | zero =>
    intro s f g hn _ _
    have hs : s = [] := by
      cases s
      · rfl
      · simp at hn
    subst hs
    cases f <;> cases g <;> simp [pySplitFuel, splitFirst]
  | succ n ih =>
    intro s f g hn hf hg
    cases f with
    | zero =>
      have hs : s = [] := by
        cases s
        · rfl
        · simp at hf
      subst hs
      cases g <;> simp [pySplitFuel, splitFirst]
    | succ f =>
      cases g with
      | zero =>
        have hs : s = [] := by
          cases s
          · rfl
          · simp at hg
        subst hs
        simp [pySplitFuel, splitFirst]
      | succ g =>
        simp only [pySplitFuel]
        cases h : splitFirst sep s with
        | none => rfl
        | some p =>
          have hlen := splitFirst_length sep s p.1 p.2 (by rw [h])
          have hseppos : 1 ≤ sep.length := by
            cases sep
            · exact absurd rfl hsep
            · simp
          exact congrArg (p.1 :: ·)
            (ih p.2 f g (by omega) (by omega) (by omega))

theorem pySplitSteps_none (s : List Char)
    (h : splitFirst STEP_DELIMITER s = none) : pySplitSteps s = [s] := by
  rw [pySplitSteps]
  cases hn : s.length with
  | zero => simp [pySplitFuel]
  | succ n => simp [pySplitFuel, h]

theorem pySplitSteps_some (s pre post : List Char)
    (h : splitFirst STEP_DELIMITER s = some (pre, post)) :
    pySplitSteps s = pre :: pySplitSteps post := by
  have hD : STEP_DELIMITER ≠ [] := by decide
  have hD16 : STEP_DELIMITER.length = 16 := by decide
  have hlen := splitFirst_length STEP_DELIMITER s pre post h
  have hspos : 1 ≤ s.length := by omega
  rw [pySplitSteps]
  rcases Nat.exists_eq_add_of_le hspos with ⟨n, hn⟩
  rw [show s.length = n + 1 by omega]
  simp only [pySplitFuel, h]
  refine congrArg (pre :: ·) ?_
  exact pySplitFuel_fuel_irrel STEP_DELIMITER hD post.length post n post.length
    (le_refl _) (by omega) (le_refl _)

/-- The delimiter has no non-trivial self-overlap: no proper non-empty
suffix-aligned copy of it matches a prefix-aligned copy. -/
theorem delim_no_overlap :
    ∀ k, k < 16 → 1 ≤ k →
      STEP_DELIMITER.drop k ≠ STEP_DELIMITER.take (16 - k) := by
  decide

/-- A copy of the delimiter cannot start strictly inside `x` and run into
the delimiter that follows `x`. -/
theorem delim_not_prefix_of_append (x r : List Char) (hx : x ≠ [])
    (hinf : ¬ STEP_DELIMITER <:+: x) :
    ¬ STEP_DELIMITER.isPrefixOf (x ++ (STEP_DELIMITER ++ r)) = true := by
  intro hpre
  have h : STEP_DELIMITER <+: x ++ (STEP_DELIMITER ++ r) :=
    List.isPrefixOf_iff_prefix.mp hpre
  by_cases hlen : STEP_DELIMITER.length ≤ x.length
  · have hxpre : x <+: x ++ (STEP_DELIMITER ++ r) := List.prefix_append _ _
    have : STEP_DELIMITER <+: x :=
      List.prefix_of_prefix_length_le h hxpre hlen
    exact hinf this.isInfix
  · push_neg at hlen
    rcases h with ⟨t, ht⟩
    have hD16 : STEP_DELIMITER.length = 16 := by decide
    have hxlen : x.length < 16 := by omega
    have hxpos : 1 ≤ x.length := by
      cases x
      · exact absurd rfl hx
      · simp
    -- x is the length-|x| prefix of the delimiter
    have htake : x = STEP_DELIMITER.take x.length := by
      have h1 : (x ++ (STEP_DELIMITER ++ r)).take x.length = x := List.take_left _ _
      have h2 : (STEP_DELIMITER ++ t).take x.length = STEP_DELIMITER.take x.length :=
        List.take_append_of_le_length (by omega)
      rw [ht, h1] at h2
      exact h2
    -- and the rest of the delimiter is its own prefix shifted by |x|
    have hdrop : STEP_DELIMITER ++ r = STEP_DELIMITER.drop x.length ++ t := by
      have h1 : (x ++ (STEP_DELIMITER ++ r)).drop x.length = STEP_DELIMITER ++ r :=
        List.drop_left _ _
      have h2 : (STEP_DELIMITER ++ t).drop x.length =
          STEP_DELIMITER.drop x.length ++ t := by
        rw [List.drop_append_eq_append_drop]
        rw [show x.length - STEP_DELIMITER.length = 0 by omega]
        rw [List.drop_zero]
      rw [ht, h1] at h2
      exact h2
    have hcontra : STEP_DELIMITER.drop x.length =
        STEP_DELIMITER.take (16 - x.length) := by
      have h1 : (STEP_DELIMITER ++ r).take (16 - x.length) =
          STEP_DELIMITER.take (16 - x.length) :=
        List.take_append_of_le_length (by omega)
      have hdlen : (STEP_DELIMITER.drop x.length).length = 16 - x.length := by
        simp [List.length_drop, hD16]
      have h2 : (STEP_DELIMITER.drop x.length ++ t).take (16 - x.length) =
          STEP_DELIMITER.drop x.length := by
        rw [← hdlen]
        exact List.take_left _ _
      rw [hdrop, h2] at h1
      exact h1
    exact delim_no_overlap x.length hxlen hxpos hcontra

theorem splitFirst_of_pref (sep s : List Char) (hs : s ≠ [])
    (h : sep <+: s) :
    splitFirst sep s = some ([], s.drop sep.length) := by
  cases s with
  | nil => exact absurd rfl hs
  | cons c cs =>
    rw [splitFirst, if_pos (List.isPrefixOf_iff_prefix.mpr h)]

/-- KEY: for entries not containing the delimiter, `splitFirst` cuts exactly
at the serialization boundary. -/
theorem splitFirst_append_delim (r : List Char) :
    ∀ x : List Char, ¬ STEP_DELIMITER <:+: x →
      splitFirst STEP_DELIMITER (x ++ (STEP_DELIMITER ++ r)) = some (x, r) := by
  intro x
  induction x with
  | nil =>
    intro _
    rw [List.nil_append]
    rw [splitFirst_of_pref STEP_DELIMITER (STEP_DELIMITER ++ r)
      (by simp [STEP_DELIMITER]) (List.prefix_append _ _)]
    rw [List.drop_left]
  | cons c cs ih =>
    intro hinf
    have hx : (c :: cs) ≠ [] := by simp
    have hnp := delim_not_prefix_of_append (c :: cs) r hx hinf
    rw [List.cons_append, splitFirst]
    rw [if_neg (by simpa using hnp)]
    have hcs : ¬ STEP_DELIMITER <:+: cs := fun h => hinf (List.infix_cons h)
    rw [ih hcs]

theorem splitFirst_of_not_inside :
    ∀ x : List Char, ¬ STEP_DELIMITER <:+: x →
      splitFirst STEP_DELIMITER x = none := by
  intro x
  induction x with
  | nil => intro _; rfl
  | cons c cs ih =>
    intro hinf
    rw [splitFirst]
    rw [if_neg (fun hpre =>
      hinf (List.isPrefixOf_iff_prefix.mp hpre).isInfix)]
    rw [ih (fun h => hinf (List.infix_cons h))]

theorem intercalate_two (x : List Char) (y : List Char) (l : List (List Char)) :
    List.intercalate STEP_DELIMITER (x :: y :: l) =
      x ++ (STEP_DELIMITER ++ List.intercalate STEP_DELIMITER (y :: l)) := by
  simp [List.intercalate, List.intersperse]

theorem pySplitSteps_intercalate :
    ∀ l : List (List Char), l ≠ [] → (∀ x ∈ l, ¬ STEP_DELIMITER <:+: x) →
      pySplitSteps (List.intercalate STEP_DELIMITER l) = l := by
  intro l
  induction l with
  | nil => intro h; exact absurd rfl h
  | cons x l ih =>
    intro _ hmem
    cases l with
    | nil =>
      have hx : List.intercalate STEP_DELIMITER [x] = x := by
        simp [List.intercalate, List.intersperse]
      rw [hx]
      rw [pySplitSteps_none x (splitFirst_of_not_inside x (hmem x (by simp)))]
    | cons y l' =>
      rw [intercalate_two]
      rw [pySplitSteps_some _ x (List.intercalate STEP_DELIMITER (y :: l'))
        (splitFirst_append_delim _ x (hmem x (by simp)))]
      rw [ih (by simp) (fun z hz => hmem z (List.mem_cons_of_mem x hz))]

theorem intercalate_ne_nil (l : List (List Char)) (hne : l ≠ [])
    (hone : l ≠ [[]]) : List.intercalate STEP_DELIMITER l ≠ [] := by
  cases l with
  | nil => exact absurd rfl hne
  | cons x l' =>
    cases l' with
    | nil =>
      have hx : x ≠ [] := by
        intro h
        exact hone (by rw [h])
      simpa [List.intercalate, List.intersperse] using hx
    | cons y l'' =>
      rw [intercalate_two]
      intro h
      have := congrArg List.length h
      simp [STEP_DELIMITER] at this

/-- Claim C1 as stated is false: a singleton list holding only the empty
string serializes to the empty string, which deserializes to the *empty
list*, losing the entry (even though the entry contains no delimiter and
the claim promises empty-string entries are reproduced). -/
theorem serialize_roundtrip_counterexample :
    (¬ STEP_DELIMITER <:+: ([] : List Char)) ∧
    deserialize_steps (serialize_steps [['M', 'i', 'x']]) = [['M', 'i', 'x']] ∧
    serialize_step_images [[]] = [] ∧
    deserialize_step_images (serialize_step_images [[]]) = [] := by
  refine ⟨by decide, ?_, rfl, rfl⟩
  rw [show serialize_steps [['M', 'i', 'x']] = ['M', 'i', 'x'] from rfl]
  rw [deserialize_steps, if_neg (by simp)]
  exact pySplitSteps_intercalate [['M', 'i', 'x']] (by simp) (by decide)

/-- Claim C1 (amended): the step / step-image serialization round-trips —
reproducing empty-string entries — for every pair of lists whose entries do
not contain the `<STEP_DELIMITER>` token, provided additionally that
neither list is the one-element list consisting of exactly one empty
string (that list serializes to the empty string, which deserializes to
the empty list). -/
theorem serialize_roundtrip (steps urls : List (List Char))
    (hsteps : ∀ x ∈ steps, ¬ STEP_DELIMITER <:+: x)
    (hurls : ∀ x ∈ urls, ¬ STEP_DELIMITER <:+: x)
    (hs1 : steps ≠ [[]]) (hu1 : urls ≠ [[]]) :
    deserialize_steps (serialize_steps steps) = steps ∧
    deserialize_step_images (serialize_step_images urls) = urls := by
  constructor
  · rcases eq_or_ne steps [] with h | h
    · subst h; rfl
    · rw [deserialize_steps, serialize_steps,
        if_neg (intercalate_ne_nil steps h hs1)]
      exact pySplitSteps_intercalate steps h hsteps
  · rcases eq_or_ne urls [] with h | h
    · subst h; rfl
    · rw [deserialize_step_images, serialize_step_images,
        if_neg (intercalate_ne_nil urls h hu1)]
      exact pySplitSteps_intercalate urls h hurls

/-- Witness for the amended C1: one concrete step list and a URL list with
an empty entry round-trip. -/
theorem serialize_roundtrip_witness :
    deserialize_steps (serialize_steps [['M', 'i', 'x']]) = [['M', 'i', 'x']] ∧
    deserialize_step_images (serialize_step_images [[], ['u']]) = [[], ['u']] :=
  serialize_roundtrip [['M', 'i', 'x']] [[], ['u']]
    (by decide) (by decide) (by decide) (by decide)

/-! ### `difflib.SequenceMatcher` / `get_close_matches`

The reconciler of `recommend_recipes` calls
`difflib.get_close_matches(llm_recipe, recipe_names, n=1, cutoff=0.6)`.
This section models CPython's `difflib` as used by that call:
`SequenceMatcher(None, a, b)` with the default `autojunk=True` and no junk
predicate, so `self.bjunk` is always empty (the two junk-extension loops
of `find_longest_match` never fire and are omitted), while *popular*
elements of `b` (more than `len(b)//100 + 1` occurrences, when
`len(b) >= 200`) are dropped from the `b2j` index.  The float cutoff `0.6`
is modelled as the rational `3/5` (the double closest to 0.6 differs from
it by less than `2^-52`; no ratio arising in this development falls inside
that gap). -/

/-- Autojunk: is `c` a popular element of `b`, dropped from `b2j`? -/
def bPopular (b : List Char) (c : Char) : Bool :=
  decide (200 ≤ b.length) && decide (b.length / 100 + 1 < b.count c)

/-- Length of the matching run ending at `(i, j)` — the value `j2len[j]`
holds after the DP row for `i` in `find_longest_match`, for `a`-indices
`≥ alo` and non-popular `b`-indices `≥ blo`. -/
def runLen (a b : List Char) (alo blo : Nat) : Nat → Nat → Nat
  | 0, j =>
    if alo ≤ 0 ∧ blo ≤ j ∧ (a.get? 0).isSome ∧ a.get? 0 = b.get? j ∧
        (b.get? j).all (fun y => !bPopular b y) = true then 1
    else 0
  | i + 1, j =>
    if alo ≤ i + 1 ∧ blo ≤ j ∧ (a.get? (i + 1)).isSome ∧
        a.get? (i + 1) = b.get? j ∧
        (b.get? j).all (fun y => !bPopular b y) = true then
      if i + 1 = alo ∨ j = blo then 1
      else runLen a b alo blo i (j - 1) + 1
    else 0

/-- The `(i, j)` pairs scanned by the DP loops of `find_longest_match`:
`i` ascending over `[alo, ahi)` and, for each `i`, the `b2j` entry of
`a[i]` (indices `j` with `b[j] = a[i]`, `b[j]` not popular) restricted to
`[blo, bhi)`, ascending. -/
def matchPairs (a b : List Char) (alo ahi blo bhi : Nat) : List (Nat × Nat) :=
  (List.range' alo (ahi - alo)).flatMap (fun i =>
    ((List.range' blo (bhi - blo)).filter (fun j =>
        decide ((b.get? j).isSome) && decide (b.get? j = a.get? i) &&
        (b.get? j).all (fun y => !bPopular b y))).map (fun j => (i, j)))

/-- One update step of the DP best-block tracking: replace the incumbent
only on a strictly greater run length, exactly as the source. -/
def bestStep (a b : List Char) (alo blo : Nat)
    (acc : Nat × Nat × Nat) (p : Nat × Nat) : Nat × Nat × Nat :=
  let k := runLen a b alo blo p.1 p.2
  if acc.2.2 < k then (p.1 + 1 - k, p.2 + 1 - k, k) else acc

/-- The best block found by the DP loops: first (in scan order) block of
maximal size, as `(besti, bestj, bestsize)`. -/
def bestTriple (a b : List Char) (alo ahi blo bhi : Nat) : Nat × Nat × Nat :=
  (matchPairs a b alo ahi blo bhi).foldl (bestStep a b alo blo) (alo, blo, 0)

/-- First extension loop of `find_longest_match` (leftward; the junk test
is vacuous since `bjunk` is empty for `get_close_matches`). -/
def extendLeft (a b : List Char) (alo blo : Nat) :
    Nat → Nat × Nat × Nat → Nat × Nat × Nat
  | 0, t => t
  | fuel + 1, (bi, bj, bk) =>
    if alo < bi ∧ blo < bj ∧ (a.get? (bi - 1)).isSome ∧
        a.get? (bi - 1) = b.get? (bj - 1) then
      extendLeft a b alo blo fuel (bi - 1, bj - 1, bk + 1)
    else (bi, bj, bk)

/-- Second extension loop of `find_longest_match` (rightward). -/
def extendRight (a b : List Char) (ahi bhi : Nat) :
    Nat → Nat × Nat × Nat → Nat × Nat × Nat
  | 0, t => t
  | fuel + 1, (bi, bj, bk) =>
    if bi + bk < ahi ∧ bj + bk < bhi ∧ (a.get? (bi + bk)).isSome ∧
        a.get? (bi + bk) = b.get? (bj + bk) then
      extendRight a b ahi bhi fuel (bi, bj, bk + 1)
    else (bi, bj, bk)

/-- `SequenceMatcher.find_longest_match` over `a[alo:ahi]`, `b[blo:bhi]`. -/
def find_longest_match (a b : List Char) (alo ahi blo bhi : Nat) :
    Nat × Nat × Nat :=
  let t0 := bestTriple a b alo ahi blo bhi
  let t1 := extendLeft a b alo blo t0.1 t0
  extendRight a b ahi bhi ahi t1

/-- Total size of all matching blocks of `get_matching_blocks`, computed by
the same divide-around-the-longest-block recursion (the queue order of the
source changes only the order blocks are found, not the set).  One unit of
fuel per level; the `a`-side width shrinks at every level, so
`a.length + 1` units always suffice. -/
def blockSumFuel (a b : List Char) :
    Nat → Nat → Nat → Nat → Nat → Nat
  | 0, _, _, _, _ => 0
  | fuel + 1, alo, ahi, blo, bhi =>
    let t := find_longest_match a b alo ahi blo bhi
    let i := t.1
    let j := t.2.1
    let k := t.2.2
    if k = 0 then 0
    else
      k + (if alo < i ∧ blo < j then blockSumFuel a b fuel alo i blo j else 0)
        + (if i + k < ahi ∧ j + k < bhi then
             blockSumFuel a b fuel (i + k) ahi (j + k) bhi else 0)

/-- Total matched size `sum(size for _, _, size in get_matching_blocks())`. -/
def matchTotal (a b : List Char) : Nat :=
  blockSumFuel a b (a.length + 1) 0 a.length 0 b.length

/-- `difflib._calculate_ratio`. -/
def calculateRatio (m length : Nat) : ℚ :=
  if length = 0 then 1 else (2 * m : ℚ) / (length : ℚ)

/-- `SequenceMatcher.ratio()`. -/
def ratioQ (a b : List Char) : ℚ :=
  calculateRatio (matchTotal a b) (a.length + b.length)

/-- `SequenceMatcher.quick_ratio()`: multiset intersection of elements. -/
def quickRatioQ (a b : List Char) : ℚ :=
  calculateRatio ((a.dedup.map (fun c => min (a.count c) (b.count c))).sum)
    (a.length + b.length)

/-- `SequenceMatcher.real_quick_ratio()`. -/
def realQuickRatioQ (a b : List Char) : ℚ :=
  calculateRatio (min a.length b.length) (a.length + b.length)

/-- Python string `<` (lexicographic by code point). -/
def strLtb : List Char → List Char → Bool
  | [], [] => false
  | [], _ :: _ => true
  | _ :: _, [] => false
  | x :: xs, y :: ys =>
    if x.toNat < y.toNat then true
    else if y.toNat < x.toNat then false
    else strLtb xs ys

/-- One step of `heapq.nlargest(1, ...)` over scored candidates: pairs are
compared lexicographically (score, then string) and the incumbent is
replaced only by a strictly larger pair, so the first of equal entries is
kept. -/
def nlargestStep (best : Option (ℚ × List Char)) (p : ℚ × List Char) :
    Option (ℚ × List Char) :=
  match best with
  | none => some p
  | some q =>
    if q.1 < p.1 ∨ (q.1 = p.1 ∧ strLtb q.2 p.2) then some p else some q

/-- The gate-and-score pass of `get_close_matches`: a candidate enters the
result list only if all three ratio bounds clear the cutoff. -/
def closeMatchScore (word x : List Char) : Option (ℚ × List Char) :=
  if realQuickRatioQ x word ≥ 3 / 5 ∧ quickRatioQ x word ≥ 3 / 5 ∧
      ratioQ x word ≥ 3 / 5 then
    some (ratioQ x word, x)
  else none

/-- `difflib.get_close_matches(word, possibilities, n=1, cutoff=0.6)`,
returning the single best match if any candidate clears the cutoff. -/
def get_close_matches1 (word : List Char) (possibilities : List (List Char)) :
    Option (List Char) :=
  ((possibilities.filterMap (closeMatchScore word)).foldl nlargestStep
    none).map Prod.snd

theorem bPopular_short (b : List Char) (h : b.length < 200) (c : Char) :
    bPopular b c = false := by
  simp [bPopular]
  omega

theorem runLen_spec (a b : List Char) (alo blo : Nat) :
    ∀ i j, runLen a b alo blo i j ≠ 0 →
      alo + runLen a b alo blo i j ≤ i + 1 ∧
      blo + runLen a b alo blo i j ≤ j + 1 ∧
      ∀ t < runLen a b alo blo i j,
        (a.get? (i - t)).isSome ∧ a.get? (i - t) = b.get? (j - t) := by
  intro i
  induction i with
  | zero =>
    intro j hne
    by_cases h1 : alo ≤ 0 ∧ blo ≤ j ∧ (a.get? 0).isSome ∧ a.get? 0 = b.get? j ∧
        (b.get? j).all (fun y => !bPopular b y) = true
    · have hEq : runLen a b alo blo 0 j = 1 := by
        rw [runLen, if_pos h1]
      rw [hEq]
      refine ⟨by omega, by omega, fun t ht => ?_⟩
      have ht0 : t = 0 := by omega
      subst ht0
      exact ⟨h1.2.2.1, h1.2.2.2.1⟩
    · have hEq : runLen a b alo blo 0 j = 0 := by rw [runLen, if_neg h1]
      exact absurd hEq hne
  | succ i ih =>
    intro j hne
    by_cases h1 : alo ≤ i + 1 ∧ blo ≤ j ∧ (a.get? (i + 1)).isSome ∧
        a.get? (i + 1) = b.get? j ∧
        (b.get? j).all (fun y => !bPopular b y) = true
    · by_cases h2 : i + 1 = alo ∨ j = blo
      · have hEq : runLen a b alo blo (i + 1) j = 1 := by
          rw [runLen, if_pos h1, if_pos h2]
        rw [hEq]
        refine ⟨by omega, by omega, fun t ht => ?_⟩
        have ht0 : t = 0 := by omega
        subst ht0
        exact ⟨h1.2.2.1, h1.2.2.2.1⟩
      · have hEq : runLen a b alo blo (i + 1) j =
            runLen a b alo blo i (j - 1) + 1 := by
          rw [runLen, if_pos h1, if_neg h2]
        rw [hEq]
        rcases Nat.eq_zero_or_pos (runLen a b alo blo i (j - 1)) with h0 | hpos
        · rw [h0]
          refine ⟨by omega, by omega, fun t ht => ?_⟩
          have ht0 : t = 0 := by omega
          subst ht0
          exact ⟨h1.2.2.1, h1.2.2.2.1⟩
        · have ihj := ih (j - 1) (by omega)
          have hj1 : 1 ≤ j := by omega
          refine ⟨by omega, by omega, fun t ht => ?_⟩
          cases t with
          | zero => exact ⟨h1.2.2.1, h1.2.2.2.1⟩
          | succ t' =>
            have e1 : i + 1 - (t' + 1) = i - t' := by omega
            have e2 : j - (t' + 1) = j - 1 - t' := by omega
            rw [e1, e2]
            exact ihj.2.2 t' (by omega)
    · have hEq : runLen a b alo blo (i + 1) j = 0 := by rw [runLen, if_neg h1]
      exact absurd hEq hne

theorem runLen_diag (a : List Char) (hlen : a.length < 200) :
    ∀ i, i < a.length → runLen a a 0 0 i i = i + 1 := by
  intro i
  induction i with
  | zero =>
    intro hi
    have h := List.get?_eq_get (show 0 < a.length by omega)
    rw [runLen]
    rw [if_pos ⟨le_refl _, le_refl _, by rw [h]; rfl, rfl, by
      rw [h]; simp [bPopular_short a hlen]⟩]
  | succ i ih =>
    intro hi
    have h := List.get?_eq_get hi
    rw [runLen]
    rw [if_pos ⟨by omega, by omega, by rw [h]; rfl, rfl, by
      rw [h]; simp [bPopular_short a hlen]⟩]
    rw [if_neg (by omega : ¬ (i + 1 = 0 ∨ i + 1 = 0))]
    simp only [Nat.add_sub_cancel]
    rw [ih (by omega)]

theorem runLen_le_left (a b : List Char) (alo blo i j : Nat) :
    runLen a b alo blo i j ≤ i + 1 := by
  rcases Nat.eq_zero_or_pos (runLen a b alo blo i j) with h | h
  · omega
  · have := (runLen_spec a b alo blo i j (by omega)).1
    omega

theorem mem_matchPairs (a b : List Char) (alo ahi blo bhi : Nat)
    (p : Nat × Nat) :
    p ∈ matchPairs a b alo ahi blo bhi ↔
      (alo ≤ p.1 ∧ p.1 < ahi ∧ blo ≤ p.2 ∧ p.2 < bhi ∧
       (b.get? p.2).isSome ∧ b.get? p.2 = a.get? p.1 ∧
       (b.get? p.2).all (fun y => !bPopular b y) = true) := by
  cases p with
  | mk i j =>
    simp only [matchPairs, List.mem_flatMap, List.mem_map, List.mem_filter,
      List.mem_range'_1, Bool.and_eq_true, decide_eq_true_eq]
    constructor
    · rintro ⟨i', ⟨hi1, hi2⟩, j', ⟨⟨⟨hj1, hj2⟩, ⟨hs, he⟩, hp⟩, hpair⟩⟩
      cases hpair
      exact ⟨hi1, by omega, hj1, by omega, hs, he, hp⟩
    · rintro ⟨h1, h2, h3, h4, h5, h6, h7⟩
      exact ⟨i, ⟨h1, by omega⟩, j, ⟨⟨⟨h3, by omega⟩, ⟨h5, h6⟩, h7⟩, rfl⟩⟩

/-- Invariant of `find_longest_match`'s intermediate triples. -/
def TripleOK (a b : List Char) (alo ahi blo bhi : Nat)
    (t : Nat × Nat × Nat) : Prop :=
  alo ≤ t.1 ∧ blo ≤ t.2.1 ∧
  (t.2.2 = 0 → t.1 = alo ∧ t.2.1 = blo) ∧
  (t.2.2 ≠ 0 → t.1 + t.2.2 ≤ ahi ∧ t.2.1 + t.2.2 ≤ bhi ∧
    ∀ s < t.2.2, (a.get? (t.1 + s)).isSome ∧
      a.get? (t.1 + s) = b.get? (t.2.1 + s))

theorem bestStep_ok (a b : List Char) (alo ahi blo bhi : Nat)
    (acc : Nat × Nat × Nat) (p : Nat × Nat)
    (hacc : TripleOK a b alo ahi blo bhi acc)
    (hp : p ∈ matchPairs a b alo ahi blo bhi) :
    TripleOK a b alo ahi blo bhi (bestStep a b alo blo acc p) := by
  rw [bestStep]
  by_cases hk : acc.2.2 < runLen a b alo blo p.1 p.2
  · rw [if_pos hk]
    have hkne : runLen a b alo blo p.1 p.2 ≠ 0 := by omega
    have hs := runLen_spec a b alo blo p.1 p.2 hkne
    have hm := (mem_matchPairs a b alo ahi blo bhi p).mp hp
    unfold TripleOK
    dsimp only
    refine ⟨by omega, by omega, fun h => absurd h hkne, fun _ => ?_⟩
    refine ⟨by omega, by omega, fun s hslt => ?_⟩
    have e1 : p.1 + 1 - runLen a b alo blo p.1 p.2 + s =
        p.1 - (runLen a b alo blo p.1 p.2 - 1 - s) := by omega
    have e2 : p.2 + 1 - runLen a b alo blo p.1 p.2 + s =
        p.2 - (runLen a b alo blo p.1 p.2 - 1 - s) := by omega
    rw [e1, e2]
    exact hs.2.2 (runLen a b alo blo p.1 p.2 - 1 - s) (by omega)
  · rw [if_neg hk]
    exact hacc

theorem bestTriple_ok (a b : List Char) (alo ahi blo bhi : Nat) :
    TripleOK a b alo ahi blo bhi (bestTriple a b alo ahi blo bhi) := by
  rw [bestTriple]
  refine List.foldlRecOn _ _ _ ?_ ?_
  · exact ⟨le_refl _, le_refl _, fun _ => ⟨rfl, rfl⟩, fun h => absurd rfl h⟩
  · intro acc hacc p hp
    exact bestStep_ok a b alo ahi blo bhi acc p hacc hp

theorem foldBest_mono (a b : List Char) (alo blo : Nat) :
    ∀ (l : List (Nat × Nat)) (acc : Nat × Nat × Nat),
      acc.2.2 ≤ (l.foldl (bestStep a b alo blo) acc).2.2 ∧
      ∀ q ∈ l, runLen a b alo blo q.1 q.2 ≤
        (l.foldl (bestStep a b alo blo) acc).2.2 := by
  intro l
  induction l with
  | nil => exact fun acc => ⟨le_refl _, by simp⟩
  | cons p l ih =>
    intro acc
    have hstep : acc.2.2 ≤ (bestStep a b alo blo acc p).2.2 ∧
        runLen a b alo blo p.1 p.2 ≤ (bestStep a b alo blo acc p).2.2 := by
      rw [bestStep]
      by_cases hk : acc.2.2 < runLen a b alo blo p.1 p.2
      · rw [if_pos hk]
        dsimp only
        omega
      · rw [if_neg hk]
        exact ⟨le_refl _, by omega⟩
    have ihs := ih (bestStep a b alo blo acc p)
    refine ⟨le_trans hstep.1 ihs.1, fun q hq => ?_⟩
    rcases List.mem_cons.mp hq with rfl | hq
    · exact le_trans hstep.2 ihs.1
    · exact ihs.2 q hq

theorem bestTriple_max (a b : List Char) (alo ahi blo bhi : Nat) :
    ∀ q ∈ matchPairs a b alo ahi blo bhi,
      runLen a b alo blo q.1 q.2 ≤ (bestTriple a b alo ahi blo bhi).2.2 :=
  (foldBest_mono a b alo blo (matchPairs a b alo ahi blo bhi) (alo, blo, 0)).2

theorem bestTriple_src (a b : List Char) (alo ahi blo bhi : Nat) :
    bestTriple a b alo ahi blo bhi = (alo, blo, 0) ∨
    ∃ p ∈ matchPairs a b alo ahi blo bhi,
      (bestTriple a b alo ahi blo bhi).2.2 = runLen a b alo blo p.1 p.2 ∧
      bestTriple a b alo ahi blo bhi =
        (p.1 + 1 - runLen a b alo blo p.1 p.2,
         p.2 + 1 - runLen a b alo blo p.1 p.2,
         runLen a b alo blo p.1 p.2) := by
  rw [bestTriple]
  refine List.foldlRecOn
    (motive := fun t => t = (alo, blo, 0) ∨
      ∃ p ∈ matchPairs a b alo ahi blo bhi,
        t.2.2 = runLen a b alo blo p.1 p.2 ∧
        t = (p.1 + 1 - runLen a b alo blo p.1 p.2,
             p.2 + 1 - runLen a b alo blo p.1 p.2,
             runLen a b alo blo p.1 p.2))
    _ _ _ (Or.inl rfl) ?_
  intro acc hacc p hp
  rw [bestStep]
  by_cases hk : acc.2.2 < runLen a b alo blo p.1 p.2
  · rw [if_pos hk]
    exact Or.inr ⟨p, hp, rfl, rfl⟩
  · rw [if_neg hk]
    exact hacc

theorem extendLeft_ok (a b : List Char) (alo ahi blo bhi : Nat) :
    ∀ fuel t, TripleOK a b alo ahi blo bhi t →
      TripleOK a b alo ahi blo bhi (extendLeft a b alo blo fuel t) := by
  intro fuel
  induction fuel with
  | zero => exact fun t h => h
  | succ fuel ih =>
    rintro ⟨bi, bj, bk⟩ h
    unfold TripleOK at h
    dsimp only at h
    rw [extendLeft]
    by_cases hc : alo < bi ∧ blo < bj ∧ (a.get? (bi - 1)).isSome ∧
        a.get? (bi - 1) = b.get? (bj - 1)
    · rw [if_pos hc]
      refine ih (bi - 1, bj - 1, bk + 1) ?_
      have hbk : bk ≠ 0 := by
        intro h0
        have := (h.2.2.1 h0).1
        omega
      have hb := h.2.2.2 hbk
      unfold TripleOK
      dsimp only
      refine ⟨by omega, by omega, by omega, fun _ => ?_⟩
      refine ⟨by omega, by omega, fun s hslt => ?_⟩
      cases s with
      | zero =>
        have e1 : bi - 1 + 0 = bi - 1 := by omega
        have e2 : bj - 1 + 0 = bj - 1 := by omega
        rw [e1, e2]
        exact ⟨hc.2.2.1, hc.2.2.2⟩
      | succ s' =>
        have e1 : bi - 1 + (s' + 1) = bi + s' := by omega
        have e2 : bj - 1 + (s' + 1) = bj + s' := by omega
        rw [e1, e2]
        exact hb.2.2 s' (by omega)
    · rw [if_neg hc]
      exact h

theorem extendRight_ok (a b : List Char) (alo ahi blo bhi : Nat) :
    ∀ fuel t, TripleOK a b alo ahi blo bhi t →
      TripleOK a b alo ahi blo bhi (extendRight a b ahi bhi fuel t) := by
  intro fuel
  induction fuel with
  | zero => exact fun t h => h
  | succ fuel ih =>
    rintro ⟨bi, bj, bk⟩ h
    unfold TripleOK at h
    dsimp only at h
    rw [extendRight]
    by_cases hc : bi + bk < ahi ∧ bj + bk < bhi ∧ (a.get? (bi + bk)).isSome ∧
        a.get? (bi + bk) = b.get? (bj + bk)
    · rw [if_pos hc]
      refine ih (bi, bj, bk + 1) ?_
      unfold TripleOK
      dsimp only
      refine ⟨h.1, h.2.1, by omega, fun _ => ?_⟩
      refine ⟨by omega, by omega, fun s hslt => ?_⟩
      by_cases hs : s < bk
      · have hbk : bk ≠ 0 := by omega
        exact (h.2.2.2 hbk).2.2 s hs
      · have hsk : s = bk := by omega
        subst hsk
        exact ⟨hc.2.2.1, hc.2.2.2⟩
    · rw [if_neg hc]
      exact h

theorem find_longest_match_ok (a b : List Char) (alo ahi blo bhi : Nat) :
    TripleOK a b alo ahi blo bhi (find_longest_match a b alo ahi blo bhi) := by
  rw [find_longest_match]
  exact extendRight_ok a b alo ahi blo bhi _ _
    (extendLeft_ok a b alo ahi blo bhi _ _ (bestTriple_ok a b alo ahi blo bhi))

theorem blockSumFuel_le (a b : List Char) :
    ∀ fuel alo ahi blo bhi,
      blockSumFuel a b fuel alo ahi blo bhi ≤ ahi - alo ∧
      blockSumFuel a b fuel alo ahi blo bhi ≤ bhi - blo := by
  intro fuel
  induction fuel with
  | zero => intro alo ahi blo bhi; simp [blockSumFuel]
  | succ fuel ih =>
    intro alo ahi blo bhi
    have hok := find_longest_match_ok a b alo ahi blo bhi
    simp only [blockSumFuel]
    rcases hflm : find_longest_match a b alo ahi blo bhi with ⟨i, j, k⟩
    rw [hflm] at hok
    unfold TripleOK at hok
    dsimp only at hok ⊢
    by_cases hk : k = 0
    · rw [if_pos hk]
      omega
    · rw [if_neg hk]
      have hb := hok.2.2.2 hk
      have ihL := ih alo i blo j
      have ihR := ih (i + k) ahi (j + k) bhi
      by_cases hL : alo < i ∧ blo < j
      · rw [if_pos hL]
        by_cases hR : i + k < ahi ∧ j + k < bhi
        · rw [if_pos hR]; omega
        · rw [if_neg hR]; omega
      · rw [if_neg hL]
        by_cases hR : i + k < ahi ∧ j + k < bhi
        · rw [if_pos hR]; omega
        · rw [if_neg hR]; omega

theorem blockSumFuel_eq_all (a b : List Char) :
    ∀ fuel alo ahi blo bhi,
      blockSumFuel a b fuel alo ahi blo bhi = ahi - alo →
      blockSumFuel a b fuel alo ahi blo bhi = bhi - blo →
      ∀ t, t < ahi - alo →
        (a.get? (alo + t)).isSome ∧ a.get? (alo + t) = b.get? (blo + t) := by
  intro fuel
  induction fuel with
  | zero =>
    intro alo ahi blo bhi h1 _ t ht
    simp only [blockSumFuel] at h1
    omega
  | succ fuel ih =>
    intro alo ahi blo bhi h1 h2 t ht
    have hok := find_longest_match_ok a b alo ahi blo bhi
    simp only [blockSumFuel] at h1 h2
    rcases hflm : find_longest_match a b alo ahi blo bhi with ⟨i, j, k⟩
    rw [hflm] at hok h1 h2
    unfold TripleOK at hok
    dsimp only at hok h1 h2
    by_cases hk : k = 0
    · rw [if_pos hk] at h1
      omega
    · rw [if_neg hk] at h1 h2
      have hb := hok.2.2.2 hk
      have hLb := blockSumFuel_le a b fuel alo i blo j
      have hRb := blockSumFuel_le a b fuel (i + k) ahi (j + k) bhi
      by_cases ht1 : t < i - alo
      · -- position in the left sub-region
        have hL : alo < i ∧ blo < j := by
          constructor
          · omega
          · by_contra hb2
            rw [if_neg (by omega : ¬ (alo < i ∧ blo < j))] at h1 h2
            by_cases hR : i + k < ahi ∧ j + k < bhi
            · rw [if_pos hR] at h1 h2; omega
            · rw [if_neg hR] at h1 h2; omega
        rw [if_pos hL] at h1 h2
        have hSL : blockSumFuel a b fuel alo i blo j = i - alo ∧
            blockSumFuel a b fuel alo i blo j = j - blo := by
          by_cases hR : i + k < ahi ∧ j + k < bhi
          · rw [if_pos hR] at h1 h2; omega
          · rw [if_neg hR] at h1 h2; omega
        exact ih alo i blo j hSL.1 hSL.2 t (by omega)
      · by_cases ht2 : t < i - alo + k
        · -- position inside the longest block
          have e1 : alo + t = i + (t - (i - alo)) := by omega
          have hij : i - alo = j - blo := by
            by_cases hL : alo < i ∧ blo < j
            · rw [if_pos hL] at h1 h2
              by_cases hR : i + k < ahi ∧ j + k < bhi
              · rw [if_pos hR] at h1 h2; omega
              · rw [if_neg hR] at h1 h2; omega
            · rw [if_neg hL] at h1 h2
              by_cases hR : i + k < ahi ∧ j + k < bhi
              · rw [if_pos hR] at h1 h2; omega
              · rw [if_neg hR] at h1 h2; omega
          have e2 : blo + t = j + (t - (i - alo)) := by omega
          rw [e1, e2]
          exact hb.2.2 (t - (i - alo)) (by omega)
        · -- position in the right sub-region
          have hR : i + k < ahi ∧ j + k < bhi := by
            constructor
            · omega
            · by_contra hb2
              rw [if_neg (by omega : ¬ (i + k < ahi ∧ j + k < bhi))] at h1 h2
              by_cases hL : alo < i ∧ blo < j
              · rw [if_pos hL] at h1 h2; omega
              · rw [if_neg hL] at h1 h2; omega
          rw [if_pos hR] at h1 h2
          have hij : i - alo = j - blo := by
            by_cases hL : alo < i ∧ blo < j
            · rw [if_pos hL] at h1 h2; omega
            · rw [if_neg hL] at h1 h2; omega
          have hSR : blockSumFuel a b fuel (i + k) ahi (j + k) bhi =
              ahi - (i + k) ∧
              blockSumFuel a b fuel (i + k) ahi (j + k) bhi =
              bhi - (j + k) := by
            by_cases hL : alo < i ∧ blo < j
            · rw [if_pos hL] at h1 h2; omega
            · rw [if_neg hL] at h1 h2; omega
          have e1 : alo + t = i + k + (t - (i - alo) - k) := by omega
          have e2 : blo + t = j + k + (t - (i - alo) - k) := by omega
          rw [e1, e2]
          exact ih (i + k) ahi (j + k) bhi hSR.1 hSR.2
            (t - (i - alo) - k) (by omega)

theorem matchTotal_le (a b : List Char) :
    matchTotal a b ≤ a.length ∧ matchTotal a b ≤ b.length := by
  have h := blockSumFuel_le a b (a.length + 1) 0 a.length 0 b.length
  simpa [matchTotal] using h

theorem eq_of_matchTotal_full (a b : List Char)
    (h1 : matchTotal a b = a.length) (h2 : matchTotal a b = b.length) :
    a = b := by
  apply List.ext_get?
  intro n
  by_cases hn : n < a.length
  · have h := blockSumFuel_eq_all a b (a.length + 1) 0 a.length 0 b.length
      (by simpa [matchTotal] using h1) (by simpa [matchTotal] using h2)
      n (by omega)
    simpa using h.2
  · rw [List.get?_eq_none.mpr (by omega),
      List.get?_eq_none.mpr (by omega)]

theorem extendLeft_stop (a b : List Char) (alo blo : Nat) (bi bj bk : Nat)
    (h : ¬ (alo < bi ∧ blo < bj ∧ (a.get? (bi - 1)).isSome ∧
        a.get? (bi - 1) = b.get? (bj - 1))) :
    ∀ fuel, extendLeft a b alo blo fuel (bi, bj, bk) = (bi, bj, bk) := by
  intro fuel
  cases fuel with
  | zero => rfl
  | succ fuel => rw [extendLeft, if_neg h]

theorem extendRight_stop (a b : List Char) (ahi bhi : Nat) (bi bj bk : Nat)
    (h : ¬ (bi + bk < ahi ∧ bj + bk < bhi ∧ (a.get? (bi + bk)).isSome ∧
        a.get? (bi + bk) = b.get? (bj + bk))) :
    ∀ fuel, extendRight a b ahi bhi fuel (bi, bj, bk) = (bi, bj, bk) := by
  intro fuel
  cases fuel with
  | zero => rfl
  | succ fuel => rw [extendRight, if_neg h]

theorem bestTriple_diag (a : List Char) (hlen : a.length < 200)
    (hpos : 1 ≤ a.length) :
    bestTriple a a 0 a.length 0 a.length = (0, 0, a.length) := by
  have hget := List.get?_eq_get (show a.length - 1 < a.length by omega)
  have hpair : ((a.length - 1 : Nat), (a.length - 1 : Nat)) ∈
      matchPairs a a 0 a.length 0 a.length := by
    rw [mem_matchPairs]
    exact ⟨by omega, by omega, by omega, by omega, by rw [hget]; rfl, rfl,
      by rw [hget]; simp [bPopular_short a hlen]⟩
  have hmax := bestTriple_max a a 0 a.length 0 a.length _ hpair
  rw [runLen_diag a hlen (a.length - 1) (by omega)] at hmax
  rcases bestTriple_src a a 0 a.length 0 a.length with h0 | ⟨p, hp, hkeq, hteq⟩
  · rw [h0] at hmax
    have hmax' : a.length - 1 + 1 ≤ 0 := hmax
    omega
  · have hm := (mem_matchPairs a a 0 a.length 0 a.length p).mp hp
    have hrle := runLen_le_left a a 0 0 p.1 p.2
    have hkge : a.length ≤ runLen a a 0 0 p.1 p.2 := by
      rw [← hkeq]
      omega
    have hrs := runLen_spec a a 0 0 p.1 p.2 (by omega)
    have hk : runLen a a 0 0 p.1 p.2 = a.length := by omega
    rw [hteq, hk]
    have e1 : p.1 + 1 - a.length = 0 := by omega
    have e2 : p.2 + 1 - a.length = 0 := by omega
    rw [e1, e2]

theorem find_longest_match_diag (a : List Char) (hlen : a.length < 200)
    (hpos : 1 ≤ a.length) :
    find_longest_match a a 0 a.length 0 a.length = (0, 0, a.length) := by
  rw [find_longest_match, bestTriple_diag a hlen hpos]
  rw [show extendLeft a a 0 0 0 (0, 0, a.length) = (0, 0, a.length) from rfl]
  exact extendRight_stop a a a.length a.length 0 0 a.length
    (fun h => absurd h.1 (by omega)) a.length

theorem matchTotal_diag (a : List Char) (hlen : a.length < 200) :
    matchTotal a a = a.length := by
  rcases Nat.eq_zero_or_pos a.length with h0 | hpos
  · have hflm : find_longest_match a a 0 a.length 0 a.length =
        (0, 0, 0) := by
      rw [h0]
      rfl
    rw [matchTotal]
    simp only [blockSumFuel, hflm]
    simp [h0]
  · rw [matchTotal]
    simp only [blockSumFuel, find_longest_match_diag a hlen hpos]
    simp
    intro h
    simp [h]

theorem calculateRatio_self (n : Nat) : calculateRatio n (n + n) = 1 := by
  rw [calculateRatio]
  split
  · rfl
  · rename_i h
    have hn : n ≠ 0 := by omega
    have hcast : ((n + n : ℕ) : ℚ) = 2 * (n : ℚ) := by push_cast; ring
    rw [hcast]
    rw [div_self]
    have : (n : ℚ) ≠ 0 := Nat.cast_ne_zero.mpr hn
    intro hcon
    apply this
    linarith

theorem ratioQ_diag (a : List Char) (hlen : a.length < 200) :
    ratioQ a a = 1 := by
  rw [ratioQ, matchTotal_diag a hlen]
  exact calculateRatio_self a.length

theorem ratioQ_le_one (x w : List Char) : ratioQ x w ≤ 1 := by
  rw [ratioQ, calculateRatio]
  split
  · exact le_refl 1
  · rename_i hne
    have hle := matchTotal_le x w
    rw [div_le_one (by exact_mod_cast Nat.pos_of_ne_zero hne)]
    have : 2 * matchTotal x w ≤ x.length + w.length := by omega
    exact_mod_cast this

theorem ratioQ_eq_one (x w : List Char) (h : ratioQ x w = 1) : x = w := by
  rw [ratioQ, calculateRatio] at h
  split at h
  · rename_i h0
    have hx : x = [] := List.length_eq_zero.mp (by omega)
    have hw : w = [] := List.length_eq_zero.mp (by omega)
    rw [hx, hw]
  · rename_i h0
    have hpos : ((x.length + w.length : ℕ) : ℚ) ≠ 0 :=
      Nat.cast_ne_zero.mpr h0
    rw [div_eq_one_iff_eq hpos] at h
    have hM : 2 * matchTotal x w = x.length + w.length := by exact_mod_cast h
    have hle := matchTotal_le x w
    exact eq_of_matchTotal_full x w (by omega) (by omega)

theorem quickRatioQ_diag (a : List Char) : quickRatioQ a a = 1 := by
  rw [quickRatioQ]
  have hfun : (fun c => min (a.count c) (a.count c)) =
      fun c => a.count c := by
    funext c
    simp
  rw [hfun, List.sum_map_count_dedup_eq_length a]
  exact calculateRatio_self a.length

theorem realQuickRatioQ_diag (a : List Char) : realQuickRatioQ a a = 1 := by
  rw [realQuickRatioQ, min_self]
  exact calculateRatio_self a.length

theorem strLtb_irrefl (x : List Char) : strLtb x x = false := by
  induction x with
  | nil => rfl
  | cons c cs ih =>
    rw [strLtb]
    have h : ¬ (c.toNat < c.toNat) := Nat.lt_irrefl _
    simp only [if_neg h]
    exact ih

theorem foldBest_sticky (w : List Char) :
    ∀ (l : List (ℚ × List Char)),
      (∀ p ∈ l, p.1 ≤ 1 ∧ (p.1 = 1 → p.2 = w)) →
      l.foldl nlargestStep (some (1, w)) = some (1, w) := by
  intro l
  induction l with
  | nil => intro _; rfl
  | cons p l ih =>
    intro hl
    have hp := hl p (by simp)
    have hstep : nlargestStep (some (1, w)) p = some (1, w) := by
      show (if (1 : ℚ) < p.1 ∨ ((1 : ℚ) = p.1 ∧ strLtb w p.2) then some p
            else some ((1 : ℚ), w)) = some (1, w)
      have hc : ¬ ((1 : ℚ) < p.1 ∨ ((1 : ℚ) = p.1 ∧ strLtb w p.2 = true)) := by
        rintro (hlt | ⟨heq, hlt⟩)
        · exact absurd hlt (not_lt.mpr hp.1)
        · rw [hp.2 heq.symm] at hlt
          rw [strLtb_irrefl] at hlt
          exact Bool.false_ne_true hlt
      rw [if_neg hc]
    rw [List.foldl_cons, hstep]
    exact ih (fun q hq => hl q (by simp [hq]))

theorem foldBest_reach (w : List Char) :
    ∀ (l : List (ℚ × List Char)),
      (∀ p ∈ l, p.1 ≤ 1 ∧ (p.1 = 1 → p.2 = w)) →
      ((1, w) ∈ l) →
      ∀ acc : Option (ℚ × List Char),
        (acc = none ∨ ∃ q, acc = some q ∧ q.1 ≤ 1 ∧ (q.1 = 1 → q.2 = w)) →
        l.foldl nlargestStep acc = some (1, w) := by
  intro l
  induction l with
  | nil => intro _ hmem; exact absurd hmem (by simp)
  | cons p l ih =>
    intro hl hmem acc hacc
    rw [List.foldl_cons]
    rcases List.mem_cons.mp hmem with hpw | hmem'
    · -- the (1, w) entry is processed now; afterwards the accumulator sticks
      have hacc' : nlargestStep acc p = some (1, w) := by
        rcases hacc with rfl | ⟨q, rfl, hq1, hq2⟩
        · rw [nlargestStep, ← hpw]
        · rw [nlargestStep]
          by_cases hc : q.1 < p.1 ∨ (q.1 = p.1 ∧ strLtb q.2 p.2)
          · rw [if_pos hc, ← hpw]
          · rw [if_neg hc]
            have hq1' : q.1 = 1 := by
              rcases lt_or_eq_of_le hq1 with hlt | heq
              · exfalso
                apply hc
                left
                rw [← hpw]
                exact hlt
              · exact heq
            have hq2' : q.2 = w := hq2 hq1'
            have hqq : q = ((1 : ℚ), w) := Prod.ext hq1' hq2'
            rw [hqq]
      rw [hacc']
      exact foldBest_sticky w l (fun r hr => hl r (by simp [hr]))
    · refine ih (fun r hr => hl r (by simp [hr])) hmem' (nlargestStep acc p) ?_
      rcases hacc with rfl | ⟨q, rfl, hq1, hq2⟩
      · exact Or.inr ⟨p, rfl, hl p (by simp)⟩
      · rw [nlargestStep]
        by_cases hc : q.1 < p.1 ∨ (q.1 = p.1 ∧ strLtb q.2 p.2)
        · rw [if_pos hc]
          exact Or.inr ⟨p, rfl, hl p (by simp)⟩
        · rw [if_neg hc]
          exact Or.inr ⟨q, rfl, hq1, hq2⟩

/-- `get_close_matches` always returns the word itself when the word occurs
literally in the candidate list and is short enough that autojunk does not
fire: the self-ratio is exactly 1, every other candidate scores at most 1,
and a score of 1 forces equality with the word. -/
theorem get_close_matches1_self (w : List Char) (names : List (List Char))
    (hw : w ∈ names) (hlen : w.length < 200) :
    get_close_matches1 w names = some w := by
  rw [get_close_matches1]
  have hfw : closeMatchScore w w = some (1, w) := by
    rw [closeMatchScore,
      if_pos ⟨by rw [realQuickRatioQ_diag]; norm_num,
        by rw [quickRatioQ_diag]; norm_num,
        by rw [ratioQ_diag w hlen]; norm_num⟩,
      ratioQ_diag w hlen]
  have hmem : ((1 : ℚ), w) ∈ names.filterMap (closeMatchScore w) :=
    List.mem_filterMap.mpr ⟨w, hw, hfw⟩
  have hprop : ∀ p ∈ names.filterMap (closeMatchScore w),
      p.1 ≤ 1 ∧ (p.1 = 1 → p.2 = w) := by
    intro p hp
    obtain ⟨x, _, hfx⟩ := List.mem_filterMap.mp hp
    rw [closeMatchScore] at hfx
    split at hfx
    · have hpx : p = (ratioQ x w, x) := (Option.some.inj hfx).symm
      rw [hpx]
      exact ⟨ratioQ_le_one x w, fun h1 => ratioQ_eq_one x w h1⟩
    · exact absurd hfx (by simp)
  rw [foldBest_reach w (names.filterMap (closeMatchScore w)) hprop hmem none
    (Or.inl rfl)]
  rfl

/-! ### Name reconciler
(`optimized_recommender.recommend_recipes`, lines 186-233)

`matchNum` models `re.match(r'^\d+\.\s+([^-\n]+)', line)` on a single
line; `pySub` models
`re.sub(rf'^(\d+\.)\s+{re.escape(llm_recipe)}', rf'\1 {db_recipe}',
text, flags=re.MULTILINE)`.  Regex backtracking notes: `\d+` before a
required literal `.` is equivalent to the maximal digit run; `\s+` is
greedy, and in `matchNum` it gives back exactly one trailing whitespace
character when `[^-\n]+` would otherwise be empty; in `pySub` the literal
(escaped, whitespace-stripped) name after `\s+` fixes the split via the
largest feasible skip length `k`. -/

/-- Backtracking of the greedy `\s+` inside `matchNum`: when the capture
would be empty at the full whitespace run, the engine gives characters
back one at a time; the capture then starts at the largest position
`k ≥ 1` inside the run whose character lies in `[^-\n]` (whitespace chars
other than newline do), and extends greedily from there. -/
def backCap (ws : List Char) : Nat → Option (List Char)
  | 0 => none
  | k + 1 =>
    match (ws.drop (k + 1)).takeWhile
        (fun c => !(decide (c = '-') || decide (c = '\n'))) with
    | [] => backCap ws k
    | c :: cs => some (c :: cs)

def matchNum (line : List Char) : Option (List Char) :=
  let ds := line.takeWhile Char.isDigit
  if ds = [] then none
  else
    let t := line.drop ds.length
    if t.head? = some '.' then
      let rest := t.tail
      let ws := rest.takeWhile isPySpace
      if ws = [] then none
      else
        let cap := (rest.drop ws.length).takeWhile
          (fun c => !(decide (c = '-') || decide (c = '\n')))
        if cap ≠ [] then some cap
        else backCap ws (ws.length - 1)
    else none

/-- Lines 189-196: extraction of the per-line name captures (the response
is stripped, split on newlines, matched per line, and each capture is
stripped). -/
def extractRecipes (ranked_response : List Char) : List (List Char) :=
  ((splitNl (pyStrip ranked_response)).filterMap matchNum).map pyStrip

/-- Largest `k ∈ [1, bound]` such that the literal name follows after `k`
whitespace characters (the greedy `\s+` with backtracking). -/
def findK (name rest : List Char) : Nat → Option Nat
  | 0 => none
  | k + 1 =>
    if name.isPrefixOf (rest.drop (k + 1)) then some (k + 1)
    else findK name rest k

/-- One attempted match of `^(\d+\.)\s+name` at a line start: the digit
group and the total span length. -/
def subMatch (name : List Char) (s : List Char) : Option (List Char × Nat) :=
  let ds := s.takeWhile Char.isDigit
  if ds = [] then none
  else
    let t := s.drop ds.length
    if t.head? = some '.' then
      (findK name t.tail (t.tail.takeWhile isPySpace).length).map
        (fun k => (ds, ds.length + 1 + k + name.length))
    else none

/-- The `re.sub` scan with explicit fuel (one unit per consumed character;
`s.length` units always suffice): at every line start of the original text
try the pattern; on a match emit `digits. db` and continue after the span. -/
def pySubFuel (name db : List Char) : Nat → Bool → List Char → List Char
  | 0, _, s => s
  | fuel + 1, atStart, s =>
    match s with
    | [] => []
    | c :: cs =>
      if atStart then
        match subMatch name (c :: cs) with
        | some p =>
          (p.1 ++ '.' :: ' ' :: db) ++
            pySubFuel name db fuel
              (decide (((c :: cs).take p.2).getLast? = some '\n'))
              ((c :: cs).drop p.2)
        | none => c :: pySubFuel name db fuel (decide (c = '\n')) cs
      else c :: pySubFuel name db fuel (decide (c = '\n')) cs

def pySub (name db text : List Char) : List Char :=
  pySubFuel name db text.length true text

/-- Checker for the amended C2: runs the same scan and reports whether
every matched span is newline-free (a span containing a newline joins two
lines of the original response into one). -/
def pySubSpansOkFuel (name : List Char) : Nat → Bool → List Char → Bool
  | 0, _, _ => true
  | fuel + 1, atStart, s =>
    match s with
    | [] => true
    | c :: cs =>
      if atStart then
        match subMatch name (c :: cs) with
        | some p =>
          (((c :: cs).take p.2).all (fun x => !(decide (x = '\n')))) &&
            pySubSpansOkFuel name fuel
              (decide (((c :: cs).take p.2).getLast? = some '\n'))
              ((c :: cs).drop p.2)
        | none => pySubSpansOkFuel name fuel (decide (c = '\n')) cs
      else pySubSpansOkFuel name fuel (decide (c = '\n')) cs

/-- One iteration of the post-processing loop (lines 204-225): fuzzy-match
the extracted name against the database names; on a hit substitute the
database name into the response text and record it, on a miss record the
`i`-th database name (or the LLM name if out of range) without touching
the text. -/
def reconcileStep (recipe_names : List (List Char))
    (acc : List Char × List (Nat × List Char)) (iw : Nat × List Char) :
    List Char × List (Nat × List Char) :=
  match get_close_matches1 iw.2 recipe_names with
  | some db_recipe =>
    (pySub iw.2 db_recipe acc.1, acc.2 ++ [(iw.1, db_recipe)])
  | none =>
    (acc.1, acc.2 ++ [(iw.1, recipe_names.getD (iw.1 - 1) iw.2)])

/-- The reconciliation pass of `recommend_recipes`: extraction followed by
the loop `for i, llm_recipe in enumerate(extracted_recipes[:3], 1)`.  The
`recipe_mapping` dict (keyed by the pairwise-distinct strings
`"Recipe i"`) is modelled as the association list of `(i, name)` pairs in
insertion order; the first component is the corrected response text. -/
def reconcile (recipe_names : List (List Char)) (ranked_response : List Char) :
    List Char × List (Nat × List Char) :=
  (List.enumFrom 1 ((extractRecipes ranked_response).take 3)).foldl
    (reconcileStep recipe_names) (ranked_response, [])

/-- The span-safety check for a whole reconciliation run: every
substitution's matched spans are newline-free and every substituted
database name is newline-free. -/
def reconcileOkStep (recipe_names : List (List Char))
    (acc : List Char × Bool) (iw : Nat × List Char) : List Char × Bool :=
  match get_close_matches1 iw.2 recipe_names with
  | some db_recipe =>
    (pySub iw.2 db_recipe acc.1,
     acc.2 && pySubSpansOkFuel iw.2 acc.1.length true acc.1 &&
       decide (db_recipe.count '\n' = 0))
  | none => acc

def reconcileOk (recipe_names : List (List Char)) (ranked_response : List Char) :
    Bool :=
  ((List.enumFrom 1 ((extractRecipes ranked_response).take 3)).foldl
    (reconcileOkStep recipe_names) (ranked_response, true)).2

/-- Checker for the amended C5: at a position where the substitution
pattern could anchor (the text begins with a nonempty digit run followed
by `'.'`), the whitespace after the dot is empty or exactly one space.
Under this discipline a successful `re.sub` match span is exactly
`digits ++ ". " ++ name`, which the replacement reproduces verbatim. -/
def numPrefixOkB (t : List Char) : Bool :=
  let ds := t.takeWhile Char.isDigit
  if ds = [] then true
  else
    let r := t.drop ds.length
    if r.head? = some '.' then
      decide (r.tail.takeWhile isPySpace = []) ||
        decide (r.tail.takeWhile isPySpace = [' '])
    else true

/-- `numPrefixOkB` holds at the current scan position (when it is a line
start) and after every newline of the text. -/
def ScanOk (b : Bool) (s : List Char) : Prop :=
  (b = true → numPrefixOkB s = true) ∧
  ∀ p < s.length, s[p]? = some '\n' → numPrefixOkB (s.drop (p + 1)) = true

instance ScanOk.instDecidable (b : Bool) (s : List Char) :
    Decidable (ScanOk b s) := by
  unfold ScanOk
  exact inferInstance

/-! #### Reconciler lemma layer -/

theorem takeWhile_append_drop_self (p : Char → Bool) (l : List Char) :
    l.takeWhile p ++ l.drop (l.takeWhile p).length = l := by
  induction l with
  | nil => rfl
  | cons a l ih =>
    by_cases h : p a = true
    · rw [List.takeWhile_cons_of_pos h]
      simp only [List.length_cons, List.cons_append, List.drop_succ_cons, ih]
    · rw [List.takeWhile_cons_of_neg h]
      rfl

theorem isPrefixOf_exists : ∀ (l₁ l₂ : List Char), l₁.isPrefixOf l₂ = true →
    ∃ t, l₁ ++ t = l₂
  | [], l₂, _ => ⟨l₂, rfl⟩
  | _ :: _, [], h => absurd h (by simp)
  | a :: l₁, b :: l₂, h => by
    rw [List.isPrefixOf_cons₂, Bool.and_eq_true] at h
    obtain ⟨t, ht⟩ := isPrefixOf_exists l₁ l₂ h.2
    exact ⟨t, by rw [List.cons_append, ht, show a = b by simpa using h.1]⟩

theorem length_takeWhile_le' (p : Char → Bool) (l : List Char) :
    (l.takeWhile p).length ≤ l.length := by
  have h := congrArg List.length (takeWhile_append_drop_self p l)
  rw [List.length_append] at h
  omega

theorem head?_cons_eq (t : List Char) (c : Char) (h : t.head? = some c) :
    t = c :: t.tail := by
  cases t with
  | nil => exact absurd h (by simp)
  | cons a l =>
    rw [List.head?_cons] at h
    injection h with h
    rw [h, List.tail_cons]

theorem take_append_len (l₁ l₂ : List Char) (i : Nat) :
    (l₁ ++ l₂).take (l₁.length + i) = l₁ ++ l₂.take i := by
  induction l₁ with
  | nil => simp
  | cons a l ih =>
    rw [List.cons_append, List.length_cons,
      show l.length + 1 + i = (l.length + i) + 1 from by omega,
      List.take_succ_cons, ih, List.cons_append]

theorem drop_append_len (l₁ l₂ : List Char) (i : Nat) :
    (l₁ ++ l₂).drop (l₁.length + i) = l₂.drop i := by
  induction l₁ with
  | nil => simp
  | cons a l ih =>
    rw [List.cons_append, List.length_cons,
      show l.length + 1 + i = (l.length + i) + 1 from by omega,
      List.drop_succ_cons, ih]

theorem findK_spec (name rest : List Char) :
    ∀ n k, findK name rest n = some k →
      1 ≤ k ∧ k ≤ n ∧ name.isPrefixOf (rest.drop k) = true := by
  intro n
  induction n with
  | zero => intro k h; exact absurd h (by simp [findK])
  | succ m ih =>
    intro k h
    rw [findK] at h
    by_cases hp : name.isPrefixOf (rest.drop (m + 1)) = true
    · rw [if_pos hp] at h
      injection h with h
      subst h
      exact ⟨Nat.succ_le_succ (Nat.zero_le m), Nat.le_refl _, hp⟩
    · rw [if_neg hp] at h
      obtain ⟨h1, h2, h3⟩ := ih k h
      exact ⟨h1, Nat.le_succ_of_le h2, h3⟩

theorem subMatch_eq (name s : List Char) (p : List Char × Nat)
    (h : subMatch name s = some p) :
    p.1 = s.takeWhile Char.isDigit ∧
    s.takeWhile Char.isDigit ≠ [] ∧
    (s.drop (s.takeWhile Char.isDigit).length).head? = some '.' ∧
    ∃ k,
      findK name (s.drop (s.takeWhile Char.isDigit).length).tail
        ((s.drop (s.takeWhile Char.isDigit).length).tail.takeWhile
          isPySpace).length = some k ∧
      p.2 = (s.takeWhile Char.isDigit).length + 1 + k + name.length := by
  simp only [subMatch] at h
  by_cases hds : s.takeWhile Char.isDigit = []
  · rw [if_pos hds] at h
    exact absurd h (by simp)
  · rw [if_neg hds] at h
    by_cases hhd : (s.drop (s.takeWhile Char.isDigit).length).head? = some '.'
    · rw [if_pos hhd] at h
      rcases hfk : findK name (s.drop (s.takeWhile Char.isDigit).length).tail
          ((s.drop (s.takeWhile Char.isDigit).length).tail.takeWhile
            isPySpace).length with _ | k
      · rw [hfk] at h
        exact absurd h (by simp)
      · rw [hfk] at h
        simp only [Option.map_some'] at h
        have hp := Option.some.inj h
        exact ⟨by rw [← hp], hds, hhd, k, rfl, by rw [← hp]⟩

    · rw [if_neg hhd] at h
      exact absurd h (by simp)

theorem subMatch_le_length (name s : List Char) (p : List Char × Nat)
    (h : subMatch name s = some p) : 1 ≤ p.2 ∧ p.2 ≤ s.length := by
  obtain ⟨hp1, hds, hhd, k, hfk, hp2⟩ := subMatch_eq name s p h
  obtain ⟨hk1, hk2, hpre⟩ := findK_spec name _ _ k hfk
  have hsplit := takeWhile_append_drop_self Char.isDigit s
  have ht := head?_cons_eq _ _ hhd
  obtain ⟨rem, hrem⟩ := isPrefixOf_exists _ _ hpre
  have hlen1 := congrArg List.length hsplit
  rw [List.length_append] at hlen1
  have hlen2 := congrArg List.length ht
  rw [List.length_cons] at hlen2
  have hlen3 := congrArg List.length hrem
  rw [List.length_append, List.length_drop] at hlen3
  have hws2 := length_takeWhile_le' isPySpace
    (s.drop (s.takeWhile Char.isDigit).length).tail
  constructor
  · omega
  · rw [hp2]; omega

theorem count_nl_takeWhile_digit (s : List Char) :
    (s.takeWhile Char.isDigit).count '\n' = 0 := by
  rw [List.count_eq_zero]
  intro hmem
  exact absurd (List.mem_takeWhile_imp hmem) (by decide)

theorem pySubFuel_succ_true (name db : List Char) (m : Nat) (c : Char)
    (cs : List Char) :
    pySubFuel name db (m + 1) true (c :: cs) =
      match subMatch name (c :: cs) with
      | some p =>
        (p.1 ++ '.' :: ' ' :: db) ++
          pySubFuel name db m
            (decide (((c :: cs).take p.2).getLast? = some '\n'))
            ((c :: cs).drop p.2)
      | none => c :: pySubFuel name db m (decide (c = '\n')) cs := rfl

theorem pySubFuel_succ_false (name db : List Char) (m : Nat) (c : Char)
    (cs : List Char) :
    pySubFuel name db (m + 1) false (c :: cs) =
      c :: pySubFuel name db m (decide (c = '\n')) cs := rfl

theorem pySubFuel_succ_none (name db : List Char) (m : Nat) (c : Char)
    (cs : List Char) (hm : subMatch name (c :: cs) = none) :
    pySubFuel name db (m + 1) true (c :: cs) =
      c :: pySubFuel name db m (decide (c = '\n')) cs := by
  simp only [pySubFuel_succ_true, hm]

theorem pySubFuel_succ_some (name db : List Char) (m : Nat) (c : Char)
    (cs : List Char) (p : List Char × Nat)
    (hm : subMatch name (c :: cs) = some p) :
    pySubFuel name db (m + 1) true (c :: cs) =
      (p.1 ++ '.' :: ' ' :: db) ++
        pySubFuel name db m
          (decide (((c :: cs).take p.2).getLast? = some '\n'))
          ((c :: cs).drop p.2) := by
  simp only [pySubFuel_succ_true, hm]

theorem pySubSpansOkFuel_succ_true (name : List Char) (m : Nat) (c : Char)
    (cs : List Char) :
    pySubSpansOkFuel name (m + 1) true (c :: cs) =
      match subMatch name (c :: cs) with
      | some p =>
        (((c :: cs).take p.2).all (fun x => !(decide (x = '\n')))) &&
          pySubSpansOkFuel name m
            (decide (((c :: cs).take p.2).getLast? = some '\n'))
            ((c :: cs).drop p.2)
      | none => pySubSpansOkFuel name m (decide (c = '\n')) cs := rfl

theorem pySubSpansOkFuel_succ_false (name : List Char) (m : Nat) (c : Char)
    (cs : List Char) :
    pySubSpansOkFuel name (m + 1) false (c :: cs) =
      pySubSpansOkFuel name m (decide (c = '\n')) cs := rfl

theorem pySubSpansOkFuel_succ_none (name : List Char) (m : Nat) (c : Char)
    (cs : List Char) (hm : subMatch name (c :: cs) = none) :
    pySubSpansOkFuel name (m + 1) true (c :: cs) =
      pySubSpansOkFuel name m (decide (c = '\n')) cs := by
  simp only [pySubSpansOkFuel_succ_true, hm]

theorem pySubSpansOkFuel_succ_some (name : List Char) (m : Nat) (c : Char)
    (cs : List Char) (p : List Char × Nat)
    (hm : subMatch name (c :: cs) = some p) :
    pySubSpansOkFuel name (m + 1) true (c :: cs) =
      ((((c :: cs).take p.2).all (fun x => !(decide (x = '\n')))) &&
        pySubSpansOkFuel name m
          (decide (((c :: cs).take p.2).getLast? = some '\n'))
          ((c :: cs).drop p.2)) := by
  simp only [pySubSpansOkFuel_succ_true, hm]

/-- When every span matched by the scan is newline-free (the checker
accepts) and the substituted name is newline-free, the substitution
preserves the number of newlines in the text. -/
theorem pySubFuel_count_nl (name db : List Char) (hdb : db.count '\n' = 0) :
    ∀ fuel (b : Bool) (s : List Char), s.length ≤ fuel →
      pySubSpansOkFuel name fuel b s = true →
      (pySubFuel name db fuel b s).count '\n' = s.count '\n' := by
  intro fuel
  induction fuel with
  | zero => intro b s _ _; rfl
  | succ m ih =>
    intro b s hlen hok
    cases s with
    | nil => rfl
    | cons c cs =>
      rw [List.length_cons] at hlen
      cases b with
      | false =>
        rw [pySubFuel_succ_false]
        rw [pySubSpansOkFuel_succ_false] at hok
        rw [List.count_cons, List.count_cons,
          ih (decide (c = '\n')) cs (by omega) hok]
      | true =>
        cases hm : subMatch name (c :: cs) with
        | none =>
          rw [pySubFuel_succ_none name db m c cs hm]
          rw [pySubSpansOkFuel_succ_none name m c cs hm] at hok
          rw [List.count_cons, List.count_cons,
            ih (decide (c = '\n')) cs (by omega) hok]
        | some p =>
          obtain ⟨hpos, hple⟩ := subMatch_le_length name (c :: cs) p hm
          rw [pySubFuel_succ_some name db m c cs p hm]
          rw [pySubSpansOkFuel_succ_some name m c cs p hm,
            Bool.and_eq_true] at hok
          obtain ⟨hall, hok'⟩ := hok
          have hcount_take : ((c :: cs).take p.2).count '\n' = 0 := by
            rw [List.count_eq_zero]
            intro hmem
            have hx := List.all_eq_true.mp hall _ hmem
            simp at hx
          have hcount_p1 : p.1.count '\n' = 0 := by
            obtain ⟨hp1, _⟩ := subMatch_eq name (c :: cs) p hm
            rw [hp1]
            exact count_nl_takeWhile_digit _
          have hih : (pySubFuel name db m
              (decide (((c :: cs).take p.2).getLast? = some '\n'))
              ((c :: cs).drop p.2)).count '\n'
              = ((c :: cs).drop p.2).count '\n' := by
            apply ih
            · rw [List.length_drop, List.length_cons]
              omega
            · exact hok'
          rw [List.count_append, List.count_append, hih, hcount_p1,
            List.count_cons_of_ne (by decide), List.count_cons_of_ne (by decide),
            hdb]
          conv_rhs => rw [← List.take_append_drop p.2 (c :: cs)]
          rw [List.count_append, hcount_take]

theorem reconcileOk_fold_false (names : List (List Char)) :
    ∀ (l : List (Nat × List Char)) (t : List Char),
      ((l.foldl (reconcileOkStep names) (t, false)).2) = false := by
  intro l
  induction l with
  | nil => intro t; rfl
  | cons iw l ih =>
    intro t
    rw [List.foldl_cons]
    cases hg : get_close_matches1 iw.2 names with
    | none =>
      simp only [reconcileOkStep, hg]
      exact ih t
    | some db =>
      simp only [reconcileOkStep, hg, Bool.false_and]
      exact ih _

theorem reconcile_fold_count (names : List (List Char)) :
    ∀ (l : List (Nat × List Char)) (t : List Char)
      (mp : List (Nat × List Char)),
      (l.foldl (reconcileOkStep names) (t, true)).2 = true →
      (l.foldl (reconcileStep names) (t, mp)).1.count '\n' = t.count '\n' := by
  intro l
  induction l with
  | nil => intro t mp _; rfl
  | cons iw l ih =>
    intro t mp h
    rw [List.foldl_cons] at h ⊢
    cases hg : get_close_matches1 iw.2 names with
    | none =>
      simp only [reconcileOkStep, hg] at h
      simp only [reconcileStep, hg]
      exact ih t _ h
    | some db =>
      simp only [reconcileOkStep, hg] at h
      simp only [reconcileStep, hg]
      by_cases hA : pySubSpansOkFuel iw.2 t.length true t = true ∧
          db.count '\n' = 0
      · have hstep : ((true && pySubSpansOkFuel iw.2 t.length true t) &&
            decide (db.count '\n' = 0)) = true := by
          rw [hA.1]
          simp [hA.2]
        rw [hstep] at h
        rw [ih (pySub iw.2 db t) (mp ++ [(iw.1, db)]) h]
        exact pySubFuel_count_nl iw.2 db hA.2 t.length true t (Nat.le_refl _)
          hA.1
      · have hstep : ((true && pySubSpansOkFuel iw.2 t.length true t) &&
            decide (db.count '\n' = 0)) = false := by
          cases hx : pySubSpansOkFuel iw.2 t.length true t with
          | false => simp [hx]
          | true =>
            cases hy : decide (db.count '\n' = 0) with
            | false => simp [hy]
            | true => exact absurd ⟨hx, of_decide_eq_true hy⟩ hA
        rw [hstep, reconcileOk_fold_false names l _] at h
        exact absurd h (by simp)

theorem reconcile_fold_mapping_length (names : List (List Char)) :
    ∀ (l : List (Nat × List Char)) (acc : List Char × List (Nat × List Char)),
      ((l.foldl (reconcileStep names) acc).2).length = acc.2.length + l.length := by
  intro l
  induction l with
  | nil => intro acc; simp
  | cons iw l ih =>
    intro acc
    rw [List.foldl_cons, ih]
    cases hg : get_close_matches1 iw.2 names with
    | none =>
      simp only [reconcileStep, hg, List.length_append, List.length_cons]
      simp
      omega
    | some db =>
      simp only [reconcileStep, hg, List.length_append, List.length_cons]
      simp
      omega

/-- C2: the recipe mapping produced by the reconciliation pass of
`recommend_recipes` always has exactly `min 3 n` entries, where `n` is the
number of lines from which `^\d+\.\s+([^-\n]+)` extracts a name; and under
the span-safety proviso `reconcileOk` (no match span of the `re.sub` call
contains a newline — the pattern's `\s+` can cross line boundaries — and
no substituted database name contains a newline) the corrected response
has exactly as many lines as the LLM's original response.  The line-count
guarantee does NOT hold unconditionally, see
`reconcile_line_count_counterexample`. -/
theorem reconcile_mapping_and_line_count (names : List (List Char))
    (ranked : List Char) :
    (reconcile names ranked).2.length =
      min 3 (extractRecipes ranked).length ∧
    (reconcileOk names ranked = true →
      lineCount (reconcile names ranked).1 = lineCount ranked) := by
  constructor
  · rw [reconcile, reconcile_fold_mapping_length]
    simp [List.length_take, Nat.min_comm]
  · intro hok
    rw [lineCount_eq_count_nl, lineCount_eq_count_nl, reconcile]
    rw [reconcileOk] at hok
    rw [reconcile_fold_count names
      (List.enumFrom 1 ((extractRecipes ranked).take 3)) ranked [] hok]

/-- Witness: on candidate list `["Foo"]` and response `"1. Foo - x"`, the
span-safety check passes and `reconcile_mapping_and_line_count` applies. -/
theorem reconcile_mapping_and_line_count_witness :
    reconcileOk ["Foo".data] "1. Foo - x".data = true ∧
    ((reconcile ["Foo".data] "1. Foo - x".data).2.length =
        min 3 (extractRecipes "1. Foo - x".data).length ∧
      lineCount (reconcile ["Foo".data] "1. Foo - x".data).1 =
        lineCount "1. Foo - x".data) := by
  have hgcm : get_close_matches1 "Foo".data ["Foo".data] = some "Foo".data :=
    get_close_matches1_self "Foo".data ["Foo".data] (by decide) (by decide)
  have hok : reconcileOk ["Foo".data] "1. Foo - x".data = true := by
    rw [reconcileOk]
    rw [show List.enumFrom 1 ((extractRecipes "1. Foo - x".data).take 3)
        = [(1, "Foo".data)] from by decide]
    rw [List.foldl_cons, List.foldl_nil]
    simp only [reconcileOkStep, hgcm]
    decide
  exact ⟨hok,
    (reconcile_mapping_and_line_count ["Foo".data] "1. Foo - x".data).1,
    (reconcile_mapping_and_line_count ["Foo".data] "1. Foo - x".data).2 hok⟩

/-- C2 counterexample: with candidate list `["Foo"]` and the 3-line LLM
response `"1. Foo - x\n2.\nFoo y"`, the `re.sub` pattern
`^(\d+\.)\s+Foo` matches across the newline after `"2."` (Python's `\s+`
matches newlines even under `re.MULTILINE`), so the corrected response has
only 2 lines: the reconciler does not preserve the line count. -/
theorem reconcile_line_count_counterexample :
    lineCount "1. Foo - x\n2.\nFoo y".data = 3 ∧
    (reconcile ["Foo".data] "1. Foo - x\n2.\nFoo y".data).1 =
      "1. Foo - x\n2. Foo y".data ∧
    lineCount (reconcile ["Foo".data] "1. Foo - x\n2.\nFoo y".data).1 = 2 := by
  have hgcm : get_close_matches1 "Foo".data ["Foo".data] = some "Foo".data :=
    get_close_matches1_self "Foo".data ["Foo".data] (by decide) (by decide)
  have h1 : (reconcile ["Foo".data] "1. Foo - x\n2.\nFoo y".data).1 =
      "1. Foo - x\n2. Foo y".data := by
    rw [reconcile]
    rw [show List.enumFrom 1
        ((extractRecipes "1. Foo - x\n2.\nFoo y".data).take 3)
        = [(1, "Foo".data)] from by decide]
    rw [List.foldl_cons, List.foldl_nil]
    simp only [reconcileStep, hgcm]
    decide
  exact ⟨by decide, h1, by rw [h1]; decide⟩

theorem ScanOk_tail (b : Bool) (c : Char) (cs : List Char)
    (h : ScanOk b (c :: cs)) : ScanOk (decide (c = '\n')) cs := by
  constructor
  · intro hc
    have hc' : c = '\n' := of_decide_eq_true hc
    have h0 := h.2 0 (by simp) (by rw [hc']; simp)
    simpa using h0
  · intro p hp hget
    have h1 := h.2 (p + 1) (by simp only [List.length_cons]; omega)
      (by simpa using hget)
    simpa using h1

theorem ScanOk_drop (b : Bool) (s : List Char) (h : ScanOk b s) (d : Nat)
    (hd : 1 ≤ d) :
    ScanOk (decide (s[d - 1]? = some '\n')) (s.drop d) := by
  constructor
  · intro hc
    have hc' : s[d - 1]? = some '\n' := of_decide_eq_true hc
    have hlt : d - 1 < s.length := by
      rcases List.getElem?_eq_some_iff.mp hc' with ⟨hh, _⟩
      exact hh
    have h1 := h.2 (d - 1) hlt hc'
    rw [show d - 1 + 1 = d from by omega] at h1
    exact h1
  · intro p hp hget
    rw [List.getElem?_drop] at hget
    rw [List.length_drop] at hp
    have h1 := h.2 (d + p) (by omega) hget
    rw [List.drop_drop]
    rw [show d + (p + 1) = d + p + 1 from by omega]
    exact h1

theorem getLast?_take_eq (s : List Char) (n : Nat) (h1 : 1 ≤ n)
    (h2 : n ≤ s.length) :
    (s.take n).getLast? = s[n - 1]? := by
  rw [List.getLast?_eq_getElem?, List.length_take,
    show min n s.length = n from by omega]
  exact List.getElem?_take_of_lt (by omega)

/-- Decomposition of a successful `^(\d+\.)\s+name` match at a position
satisfying `numPrefixOkB`: the whitespace run is exactly one space, so the
span is `digits ++ ". " ++ name` and the text splits accordingly. -/
theorem pySub_match_decomp (name s : List Char) (p : List Char × Nat)
    (hm : subMatch name s = some p) (hnum : numPrefixOkB s = true) :
    ∃ rem, s = p.1 ++ '.' :: ' ' :: (name ++ rem) ∧
      s.take p.2 = p.1 ++ '.' :: ' ' :: name ∧
      s.drop p.2 = rem := by
  obtain ⟨hp1, hds, hhd, k, hfk, hp2⟩ := subMatch_eq name s p hm
  have hsplit := takeWhile_append_drop_self Char.isDigit s
  have hts := head?_cons_eq _ _ hhd
  simp only [numPrefixOkB] at hnum
  rw [if_neg hds, if_pos hhd] at hnum
  simp only [Bool.or_eq_true, decide_eq_true_eq] at hnum
  obtain ⟨hk1, hk2, hpre⟩ := findK_spec name _ _ k hfk
  rcases hnum with hws | hws
  · rw [hws] at hk2
    simp at hk2
    exact absurd hk1 (by omega)
  · have hk : k = 1 := by
      rw [hws] at hk2
      simp at hk2
      omega
    subst hk
    have h5 := takeWhile_append_drop_self isPySpace
      (s.drop (s.takeWhile Char.isDigit).length).tail
    rw [hws] at h5
    simp only [List.cons_append, List.nil_append, List.length_cons,
      List.length_nil] at h5
    obtain ⟨rem, hrem⟩ := isPrefixOf_exists _ _ hpre
    have hstruct : s = s.takeWhile Char.isDigit ++ '.' :: ' ' ::
        (name ++ rem) := by
      conv_lhs => rw [← hsplit]
      rw [hts, ← h5, ← hrem]
    obtain ⟨D, hD⟩ : ∃ D, s.takeWhile Char.isDigit = D := ⟨_, rfl⟩
    rw [hD] at hp1 hp2 hstruct
    refine ⟨rem, by rw [hp1]; exact hstruct, ?_, ?_⟩
    · rw [hp1, hp2,
        show D.length + 1 + 1 + name.length = D.length + (2 + name.length)
          from by omega]
      conv_lhs => rw [hstruct]
      rw [take_append_len,
        show 2 + name.length = name.length + 1 + 1 + 0 from by omega]
      rw [show name.length + 1 + 1 + 0 = name.length + 1 + 1 from by omega,
        List.take_succ_cons, List.take_succ_cons, List.take_left]
    · rw [hp2,
        show D.length + 1 + 1 + name.length = D.length + (2 + name.length)
          from by omega]
      conv_lhs => rw [hstruct]
      rw [drop_append_len,
        show 2 + name.length = name.length + 1 + 1 from by omega,
        List.drop_succ_cons, List.drop_succ_cons, List.drop_left]

/-- The substitution is the identity when the replacement equals the
pattern name and every line start of the text is single-space-numbered:
each match span reads `digits ++ ". " ++ name` and is replaced by itself. -/
theorem pySubFuel_id (name : List Char) :
    ∀ fuel (b : Bool) (s : List Char), s.length ≤ fuel → ScanOk b s →
      pySubFuel name name fuel b s = s := by
  intro fuel
  induction fuel with
  | zero => intro b s _ _; rfl
  | succ m ih =>
    intro b s hlen hsc
    cases s with
    | nil => rfl
    | cons c cs =>
      rw [List.length_cons] at hlen
      cases b with
      | false =>
        rw [pySubFuel_succ_false,
          ih (decide (c = '\n')) cs (by omega) (ScanOk_tail false c cs hsc)]
      | true =>
        cases hm : subMatch name (c :: cs) with
        | none =>
          rw [pySubFuel_succ_none name name m c cs hm,
            ih (decide (c = '\n')) cs (by omega) (ScanOk_tail true c cs hsc)]
        | some p =>
          have hnum : numPrefixOkB (c :: cs) = true := hsc.1 rfl
          obtain ⟨rem, hstruct, htake, hdropeq⟩ :=
            pySub_match_decomp name (c :: cs) p hm hnum
          obtain ⟨hpos, hple⟩ := subMatch_le_length name (c :: cs) p hm
          rw [pySubFuel_succ_some name name m c cs p hm,
            getLast?_take_eq (c :: cs) p.2 hpos hple, hdropeq]
          have hscd := ScanOk_drop true (c :: cs) hsc p.2 hpos
          rw [hdropeq] at hscd
          have hfuel : rem.length ≤ m := by
            have hll := congrArg List.length hstruct
            simp only [List.length_append, List.length_cons] at hll
            omega
          rw [ih _ rem hfuel hscd]
          conv_rhs => rw [hstruct]
          simp [List.append_assoc]

theorem reconcile_fold_exact (names : List (List Char)) (ranked : List Char)
    (hok : ScanOk true ranked) :
    ∀ (l : List (List Char)) (i : Nat) (mp : List (Nat × List Char)),
      (∀ w ∈ l, w ∈ names ∧ w.length < 200) →
      (List.enumFrom i l).foldl (reconcileStep names) (ranked, mp) =
        (ranked, mp ++ List.enumFrom i l) := by
  intro l
  induction l with
  | nil => intro i mp _; simp
  | cons w l ih =>
    intro i mp hall
    have hw := hall w (by simp)
    rw [show List.enumFrom i (w :: l) = (i, w) :: List.enumFrom (i + 1) l
      from rfl]
    rw [List.foldl_cons]
    have hstep : reconcileStep names (ranked, mp) (i, w) =
        (ranked, mp ++ [(i, w)]) := by
      simp only [reconcileStep, get_close_matches1_self w names hw.1 hw.2]
      rw [show pySub w w ranked = ranked from
        pySubFuel_id w ranked.length true ranked (Nat.le_refl _) hok]
    rw [hstep, ih (i + 1) (mp ++ [(i, w)]) (fun x hx => hall x (by simp [hx]))]
    simp

/-- C5: under the provisos that every extracted name (top 3) occurs
character-for-character in the allow-list and is shorter than 200
characters (so `difflib` autojunk cannot fire and `get_close_matches`
returns the name itself), and that every line start of the response is
single-space-numbered (`ScanOk`, so no earlier substitution can rewrite a
later line), the reconciler leaves the whole response textually unchanged
and the mapping records exactly the extracted names in order.  Without the
`ScanOk` proviso the per-line claim fails, see
`reconcile_clobbers_exact_name`. -/
theorem reconcile_exact_names (names : List (List Char)) (ranked : List Char)
    (hall : ∀ w ∈ (extractRecipes ranked).take 3, w ∈ names ∧ w.length < 200)
    (hok : ScanOk true ranked) :
    reconcile names ranked =
      (ranked, List.enumFrom 1 ((extractRecipes ranked).take 3)) := by
  rw [reconcile,
    reconcile_fold_exact names ranked hok ((extractRecipes ranked).take 3)
      1 [] hall]
  simp

/-- Witness: on candidate list `["Foo"]` and response `"1. Foo - x"` both
provisos hold and `reconcile_exact_names` applies. -/
theorem reconcile_exact_names_witness :
    (∀ w ∈ (extractRecipes "1. Foo - x".data).take 3,
        w ∈ ["Foo".data] ∧ w.length < 200) ∧
    ScanOk true "1. Foo - x".data ∧
    reconcile ["Foo".data] "1. Foo - x".data =
      ("1. Foo - x".data,
        List.enumFrom 1 ((extractRecipes "1. Foo - x".data).take 3)) :=
  ⟨by decide, by decide,
    reconcile_exact_names ["Foo".data] "1. Foo - x".data (by decide)
      (by decide)⟩

theorem reconcileStep_hit (names : List (List Char)) (t : List Char)
    (mp : List (Nat × List Char)) (i : Nat) (w db : List Char)
    (hg : get_close_matches1 w names = some db) :
    reconcileStep names (t, mp) (i, w) = (pySub w db t, mp ++ [(i, db)]) := by
  unfold reconcileStep
  dsimp only
  rw [hg]

theorem nlargestStep_lt (q p : ℚ × List Char) (h : q.1 < p.1) :
    nlargestStep (some q) p = some p := by
  show (if q.1 < p.1 ∨ (q.1 = p.1 ∧ strLtb q.2 p.2) then some p else some q)
    = some p
  exact if_pos (Or.inl h)

theorem ratio_Foobar_Foob : ratioQ "Foobar".data "Foob".data = 4 / 5 := by
  rw [ratioQ, show matchTotal "Foobar".data "Foob".data = 4 from rfl,
    show "Foobar".data.length + "Foob".data.length = 10 from rfl]
  norm_num [calculateRatio]

theorem quick_Foobar_Foob : quickRatioQ "Foobar".data "Foob".data = 4 / 5 := by
  rw [quickRatioQ,
    show ("Foobar".data.dedup.map
      (fun c => min ("Foobar".data.count c) ("Foob".data.count c))).sum = 4
      from by decide,
    show "Foobar".data.length + "Foob".data.length = 10 from rfl]
  norm_num [calculateRatio]

theorem rquick_Foobar_Foob :
    realQuickRatioQ "Foobar".data "Foob".data = 4 / 5 := by
  rw [realQuickRatioQ,
    show min "Foobar".data.length "Foob".data.length = 4 from rfl,
    show "Foobar".data.length + "Foob".data.length = 10 from rfl]
  norm_num [calculateRatio]

theorem ratio_Foobs_Foob : ratioQ "Foobs".data "Foob".data = 8 / 9 := by
  rw [ratioQ, show matchTotal "Foobs".data "Foob".data = 4 from rfl,
    show "Foobs".data.length + "Foob".data.length = 9 from rfl]
  norm_num [calculateRatio]

theorem quick_Foobs_Foob : quickRatioQ "Foobs".data "Foob".data = 8 / 9 := by
  rw [quickRatioQ,
    show ("Foobs".data.dedup.map
      (fun c => min ("Foobs".data.count c) ("Foob".data.count c))).sum = 4
      from by decide,
    show "Foobs".data.length + "Foob".data.length = 9 from rfl]
  norm_num [calculateRatio]

theorem rquick_Foobs_Foob :
    realQuickRatioQ "Foobs".data "Foob".data = 8 / 9 := by
  rw [realQuickRatioQ,
    show min "Foobs".data.length "Foob".data.length = 4 from rfl,
    show "Foobs".data.length + "Foob".data.length = 9 from rfl]
  norm_num [calculateRatio]

/-- The fuzzy matcher prefers `"Foobs"` (ratio 8/9) over `"Foobar"`
(ratio 4/5) for the query `"Foob"`. -/
theorem gcm_Foob : get_close_matches1 "Foob".data
    ["Foobar".data, "Foobs".data] = some "Foobs".data := by
  have h1 : closeMatchScore "Foob".data "Foobar".data =
      some (4 / 5, "Foobar".data) := by
    rw [closeMatchScore,
      if_pos ⟨by rw [rquick_Foobar_Foob]; norm_num,
        by rw [quick_Foobar_Foob]; norm_num,
        by rw [ratio_Foobar_Foob]; norm_num⟩,
      ratio_Foobar_Foob]
  have h2 : closeMatchScore "Foob".data "Foobs".data =
      some (8 / 9, "Foobs".data) := by
    rw [closeMatchScore,
      if_pos ⟨by rw [rquick_Foobs_Foob]; norm_num,
        by rw [quick_Foobs_Foob]; norm_num,
        by rw [ratio_Foobs_Foob]; norm_num⟩,
      ratio_Foobs_Foob]
  rw [get_close_matches1]
  rw [show ["Foobar".data, "Foobs".data].filterMap
      (closeMatchScore "Foob".data) =
      [((4 : ℚ) / 5, "Foobar".data), ((8 : ℚ) / 9, "Foobs".data)] from by
    simp only [List.filterMap_cons, h1, h2, List.filterMap_nil]]
  rw [List.foldl_cons, List.foldl_cons, List.foldl_nil,
    show nlargestStep none ((4 : ℚ) / 5, "Foobar".data) =
      some ((4 : ℚ) / 5, "Foobar".data) from rfl,
    nlargestStep_lt _ _ (by norm_num)]
  rfl

/-- C5 counterexample: allow-list `["Foobar", "Foobs"]`, LLM response
`"1. Foob - a\n2. Foobar - b"`.  Line 2's extracted name `"Foobar"` is
character-for-character in the allow-list, yet the substitution performed
for line 1 (`"Foob"` fuzzy-matches to `"Foobs"`) also rewrites line 2 —
`^(\d+\.)\s+Foob` matches the prefix of `"2. Foobar - b"` — turning it
into `"2. Foobsar - b"`: the reconciler does not leave the exactly-echoed
line textually unchanged. -/
theorem reconcile_clobbers_exact_name :
    extractRecipes "1. Foob - a\n2. Foobar - b".data =
      ["Foob".data, "Foobar".data] ∧
    "Foobar".data ∈ ["Foobar".data, "Foobs".data] ∧
    (reconcile ["Foobar".data, "Foobs".data]
        "1. Foob - a\n2. Foobar - b".data).1 =
      "1. Foobs - a\n2. Foobsar - b".data ∧
    (splitNl (reconcile ["Foobar".data, "Foobs".data]
        "1. Foob - a\n2. Foobar - b".data).1)[1]? ≠
      (splitNl "1. Foob - a\n2. Foobar - b".data)[1]? := by
  have hgcm2 : get_close_matches1 "Foobar".data
      ["Foobar".data, "Foobs".data] = some "Foobar".data :=
    get_close_matches1_self "Foobar".data ["Foobar".data, "Foobs".data]
      (by decide) (by decide)
  have h1 : (reconcile ["Foobar".data, "Foobs".data]
      "1. Foob - a\n2. Foobar - b".data).1 =
      "1. Foobs - a\n2. Foobsar - b".data := by
    rw [reconcile]
    rw [show List.enumFrom 1
        ((extractRecipes "1. Foob - a\n2. Foobar - b".data).take 3)
        = [(1, "Foob".data), (2, "Foobar".data)] from by decide]
    rw [List.foldl_cons, List.foldl_cons, List.foldl_nil,
      reconcileStep_hit _ _ _ _ _ _ gcm_Foob,
      reconcileStep_hit _ _ _ _ _ _ hgcm2]
    decide
  exact ⟨by decide, by decide, h1, by rw [h1]; decide⟩

end Foodiee
